import Mathlib

/-!
# Verification of the gluon type-inference core

This file gives a shallow embedding, in Lean 4, of the substitution engine
(`check/src/substitution.rs`), the alias resolver (`base/src/resolve.rs`) and
selected helpers of the typechecker (`check/src/typecheck.rs`) of the gluon
repository, and proves (or refutes) the specification claims about them.

Conventions:
* `u32` values (variable ids, levels, ranks) are modelled as `Nat`; the only
  place where the `u32` range matters is the initial level `u32::MAX`, modelled
  as the concrete constant `u32Max = 2^32 - 1`.
* Interior mutability (`RefCell`) is modelled by explicit state passing: every
  operation takes a `SubsState` and returns the updated one.
* The walks of `occurs` and `remove_aliases` are not structurally recursive in
  the source (they follow the substitution / the alias environment), so they
  take an explicit fuel parameter; `none` (out of fuel for every fuel value)
  models divergence of the source loop.
* The type representation `base::types::Type` is not part of the sources; it is
  modelled from the spec's data-model table (§3).  Per-variable kinds and the
  `Forall` instantiation cache are omitted: no operation modelled here
  inspects them.
-/

set_option maxHeartbeats 1000000

namespace Gluon

/-- Symbols are opaque interned names; equality is all the core uses of them. -/
abbrev Symbol := Nat

/-- Modelled from the spec (§3 data model): the tagged type representation
`base::types::Type`, whose definition (`base/src/types.rs`) is not among the
sources.  `Function(arg, ret)` is sugar for `App(builtin Function, [arg, ret])`
per the spec, so no separate constructor is introduced; `Alias(AliasRef)` is
inlined as name/params/body; the row `types` fields carry their alias as a
`Typ` payload. -/
inductive Typ where
  | hole : Typ
  | opq : Typ
  | builtin : Symbol → Typ
  | tvar : Nat → Typ
  | skolem : Symbol → Nat → Typ
  | generic : Symbol → Typ
  | forallT : List Symbol → Typ → Typ
  | app : Typ → List Typ → Typ
  | record : Typ → Typ
  | variant : Typ → Typ
  | extendRow : List (Symbol × Typ) → List (Symbol × Typ) → Typ → Typ
  | emptyRow : Typ
  | aliasT : Symbol → List Symbol → Typ → Typ
  | ident : Symbol → Typ

namespace Typ

/-- `Substitutable::get_var` for types: only `Type::Variable` is a variable
(this mirrors the match in `Substitution::replace_variable_`). -/
def getVar : Typ → Option Nat
  | .tvar id => some id
  | _ => none

/-- Modelled from the spec: the sub-terms visited by `Substitutable::traverse`
(`base::types::walk_type`, not among the sources): constructor arguments, row
fields and the row tail.  Alias bodies are not traversed. -/
def children : Typ → List Typ
  | .forallT _ body => [body]
  | .app head args => head :: args
  | .record row => [row]
  | .variant row => [row]
  | .extendRow tys fields rest => tys.map Prod.snd ++ fields.map Prod.snd ++ [rest]
  | _ => []

end Typ

mutual
/-- Structural equality of types, mirroring the derived `PartialEq` of
`base::types::Type` (used by `Substitution::union`'s equality shortcut). -/
def tbeq : Typ → Typ → Bool
  | .hole, .hole => true
  | .opq, .opq => true
  | .builtin a, .builtin b => a == b
  | .tvar a, .tvar b => a == b
  | .skolem n1 i1, .skolem n2 i2 => n1 == n2 && i1 == i2
  | .generic a, .generic b => a == b
  | .forallT p1 b1, .forallT p2 b2 => p1 == p2 && tbeq b1 b2
  | .app h1 a1, .app h2 a2 => tbeq h1 h2 && tbeqL a1 a2
  | .record r1, .record r2 => tbeq r1 r2
  | .variant r1, .variant r2 => tbeq r1 r2
  | .extendRow t1 f1 r1, .extendRow t2 f2 r2 => tbeqP t1 t2 && tbeqP f1 f2 && tbeq r1 r2
  | .emptyRow, .emptyRow => true
  | .aliasT n1 p1 b1, .aliasT n2 p2 b2 => n1 == n2 && p1 == p2 && tbeq b1 b2
  | .ident a, .ident b => a == b
  | _, _ => false

def tbeqL : List Typ → List Typ → Bool
  | [], [] => true
  | x :: xs, y :: ys => tbeq x y && tbeqL xs ys
  | _, _ => false

def tbeqP : List (Symbol × Typ) → List (Symbol × Typ) → Bool
  | [], [] => true
  | (n1, x) :: xs, (n2, y) :: ys => n1 == n2 && tbeq x y && tbeqP xs ys
  | _, _ => false
end

/-- The initial level of a fresh union-find node (`::std::u32::MAX`). -/
def u32Max : Nat := 4294967295

/-- The state of a `Substitution<ArcType>`: the quick-find union-find array
(`link`), the per-node `UnionByLevel` payloads (`level`, `rank`,
`constraints`, meaningful at representatives), the number of created variables
(`variables.len()`; the vector itself always holds `Type::Variable(i)` at
index `i`, so only its length is tracked), and the `types` fixed map. -/
structure SubsState where
  varCount : Nat
  link : Nat → Nat
  level : Nat → Nat
  rank : Nat → Nat
  constr : Nat → List (Symbol × List Typ)
  types : Nat → Option Typ

namespace SubsState

/-- The fields of the state that `real`/`find_type_for_var` read (levels and
ranks do not influence them). -/
def view (s : SubsState) : Nat × (Nat → Nat) × (Nat → Option Typ) :=
  (s.varCount, s.link, s.types)

end SubsState

/-- `Substitution::find_type_for_var`. -/
def findTypeForVar (s : SubsState) (v : Nat) : Option Typ :=
  if s.varCount ≤ v then none
  else
    let idx := s.link v
    match s.types idx with
    | some t => some t
    | none => if v = idx then none else some (.tvar idx)

/-- `Substitution::real`: one step of resolution through the substitution. -/
def real (s : SubsState) (t : Typ) : Typ :=
  match t.getVar with
  | some v => (findTypeForVar s v).getD t
  | none => t

/-- `Substitution::get_level` (which clamps the stored level by the queried
variable id as a side effect); returns the value and the updated state. -/
def getLevel (s : SubsState) (v : Nat) : Nat × SubsState :=
  let var := match findTypeForVar s v with
    | some u => u.getVar.getD v
    | none => v
  let idx := s.link var
  let lv := min (s.level idx) var
  (lv, { s with level := fun j => if j = idx then lv else s.level j })

/-- The value computed by `get_level` (for stating level properties). -/
def levelVal (s : SubsState) (v : Nat) : Nat := (getLevel s v).1

/-- `Substitution::update_level`: `other`'s node level becomes the minimum of
the two levels. -/
def updateLevel (s : SubsState) (var other : Nat) : SubsState :=
  let p1 := getLevel s var
  let p2 := getLevel p1.2 other
  let s2 := p2.2
  let lv := min p1.1 p2.1
  { s2 with level := fun j => if j = s2.link other then lv else s2.level j }

/-- `Substitution::new_constrained_var`: appends a fresh singleton union-find
node with level `u32::MAX`, rank 0 and the optional constraint. -/
def newConstrainedVar (s : SubsState) (c : Option (Symbol × List Typ)) : Typ × SubsState :=
  let id := s.varCount
  (.tvar id,
    { varCount := id + 1
      link := fun j => if j = id then id else s.link j
      level := fun j => if j = id then u32Max else s.level j
      rank := fun j => if j = id then 0 else s.rank j
      constr := fun j => if j = id then c.toList else s.constr j
      types := s.types })

/-- `Substitution::new_var`. -/
def newVar (s : SubsState) : Typ × SubsState := newConstrainedVar s none

/-- The two `panic!` branches of `Substitution::insert`. -/
inductive InsertPanic where
  | varInsert : InsertPanic
  | dupInsert : InsertPanic

/-- `Substitution::insert`: panics when the inserted type is a variable, or
when the key already has a type. -/
def insertT (s : SubsState) (var : Nat) (t : Typ) : Except InsertPanic SubsState :=
  match t.getVar with
  | some _ => .error .varInsert
  | none =>
    match s.types var with
    | some _ => .error .dupInsert
    | none => .ok { s with types := fun j => if j = var then some t else s.types j }

/-- The `UnionByLevel` node payload. -/
structure UnionByLevel where
  rank : Nat
  level : Nat
  constraints : List (Symbol × List Typ)

/-- `HashMap::extend` on constraint maps: all of `right`'s bindings are
inserted into `left`, the right-hand binding replacing the left-hand one on a
shared key. -/
def extendC (l r : List (Symbol × List Typ)) : List (Symbol × List Typ) :=
  l.filter (fun p => (r.lookup p.1).isNone) ++ r

/-- `UnionByRank::union` from the `union_find` crate: the greater rank wins;
on a tie the left node wins and its rank increases by one.  Returns
whether the left node is the representative, and the resulting rank. -/
def rankUnion (l r : Nat) : Bool × Nat :=
  match compare l r with
  | .lt => (false, r)
  | .gt => (true, l)
  | .eq => (true, l + 1)

/-- `UnionByLevel::union`: constraint maps are merged by `extend`, the rank
follows `UnionByRank`, and the node with the strictly lower level becomes the
representative with its level; on equal levels the rank decides.  Returns
whether the left node is the representative, and the merged payload. -/
def ubUnion (left right : UnionByLevel) : Bool × UnionByLevel :=
  let constraints := extendC left.constraints right.constraints
  let rr := rankUnion left.rank right.rank
  match compare left.level right.level with
  | .lt => (true, { rank := rr.2, level := left.level, constraints := constraints })
  | .gt => (false, { rank := rr.2, level := right.level, constraints := constraints })
  | .eq => (rr.1, { rank := rr.2, level := left.level, constraints := constraints })

/-- The payload stored at index `i` of the union-find. -/
def payload (s : SubsState) (i : Nat) : UnionByLevel :=
  { rank := s.rank i, level := s.level i, constraints := s.constr i }

/-- `QuickFindUf::union` with the `UnionByLevel` merge rule: find both
representatives, merge their payloads, relabel the loser's class to the
winner and store the merged payload at the winner. -/
def unionUF (s : SubsState) (a b : Nat) : SubsState :=
  let ra := s.link a
  let rb := s.link b
  if ra = rb then s
  else
    let m := ubUnion (payload s ra) (payload s rb)
    let w := if m.1 then ra else rb
    let lose := if m.1 then rb else ra
    { s with
      link := fun j => if s.link j = lose then w else s.link j
      rank := fun j => if j = w then m.2.rank else s.rank j
      level := fun j => if j = w then m.2.level else s.level j
      constr := fun j => if j = w then m.2.constraints else s.constr j }

/-- The `Occurs` walker of `substitution::occurs`, as a worklist: each node is
resolved through `real`; a variable equal to `v` sets the flag (and the walk
stops), any other variable gets its level lowered by `update_level`, and the
node's sub-terms are pushed.  Fuel is spent per node; `none` means the walk
did not finish within the fuel (the source has no bound and would loop). -/
def occursGo (v : Nat) : Nat → SubsState → List Typ → Option (Bool × SubsState)
  | 0, _, _ => none
  | _ + 1, s, [] => some (false, s)
  | fuel + 1, s, t :: rest =>
    let t' := real s t
    match t'.getVar with
    | some w =>
      if v = w then some (true, s)
      else occursGo v fuel (updateLevel s v w) (t'.children ++ rest)
    | none => occursGo v fuel s (t'.children ++ rest)

/-- `substitution::occurs(typ, subs, var)`. -/
def occursChk (fuel : Nat) (s : SubsState) (v : Nat) (t : Typ) : Option (Bool × SubsState) :=
  occursGo v fuel s [t]

/-- `substitution::Error`. -/
inductive SubsError where
  | occursE : Typ → Typ → SubsError
  | constraintE : Typ → List Typ → SubsError

/-- The loop body of `Substitution::resolve_constraints`: for each constraint
set, the first candidate that is `equivalent` to the current type (after
`instantiate`) is selected; the current type is replaced by the candidate when
the candidate is a strictly lower variable or a concrete type.  `Ok (some _)`
is returned exactly when at least one replacement happened (the `Cow`).
The `Equivalent` strategy and `Substitutable::instantiate` live outside the
sources (`unify.rs` / `base::types`); they are parameters `equiv` and `inst`
(the spec states that `Equivalent` only uses a temporary local substitution,
so neither mutates the state). -/
def resolveConsGo (equiv : Typ → Typ → Bool) (inst : Typ → Typ)
    (cs : List (Symbol × List Typ)) (t : Typ) (changed : Bool) :
    Except SubsError (Option Typ) :=
  match cs with
  | [] => .ok (if changed then some t else none)
  | (_, cands) :: rest =>
    match (cands.map inst).find? (fun c => equiv c t) with
    | none => .error (.constraintE t cands)
    | some resolved =>
      match t.getVar, resolved.getVar with
      | some x, some y =>
        if y < x then resolveConsGo equiv inst rest resolved true
        else resolveConsGo equiv inst rest t changed
      | _, none => resolveConsGo equiv inst rest resolved true
      | _, _ => resolveConsGo equiv inst rest t changed

/-- `Substitution::resolve_constraints` (the constraint map is read at the
representative of `id`, as `self.union.borrow_mut().get(id)` does). -/
def resolveConstraints (equiv : Typ → Typ → Bool) (inst : Typ → Typ)
    (s : SubsState) (v : Nat) (t : Typ) : Except SubsError (Option Typ) :=
  resolveConsGo equiv inst (s.constr (s.link v)) t false

/-- The possible outcomes of `Substitution::union`: `Ok`, the two
`substitution::Error`s (with the state as mutated so far), either `panic!`
inside `insert`, or running out of fuel inside the occurs walk. -/
inductive UnionOutcome where
  | ok : Option Typ → SubsState → UnionOutcome
  | fail : SubsError → SubsState → UnionOutcome
  | panicVarInsert : UnionOutcome
  | panicDupInsert : UnionOutcome
  | fuelOut : UnionOutcome

/-- The same-variable shortcut of `union`:
`typ.get_var().map_or(false, |other| other.get_id() == id.get_id())`. -/
def sameVar (t : Typ) (v : Nat) : Bool :=
  match t.getVar with
  | some w => w == v
  | none => false

/-- The already-equal shortcut of `union`: `id`'s type equals `real typ`, or
`real typ` is the variable `id` itself. -/
def unionEqCheck (s1 : SubsState) (v : Nat) (t : Typ) : Bool :=
  (match findTypeForVar s1 v with
    | some x => tbeq x (real s1 t)
    | none => false)
  || (match (real s1 t).getVar with
    | some w => w == v
    | none => false)

/-- The final step of `union`, on the (possibly constraint-resolved) type:
a variable is linked through the union-find (followed by the two
`update_level` calls), a concrete type is inserted into the type map. -/
def unionFinish (s1 : SubsState) (v : Nat) (t : Typ) (resolvedOpt : Option Typ) :
    UnionOutcome :=
  let t2 := resolvedOpt.getD t
  match t2.getVar with
  | some otherId =>
    .ok resolvedOpt (updateLevel (updateLevel (unionUF s1 v otherId) v otherId) otherId v)
  | none =>
    match insertT s1 v t2 with
    | .error .varInsert => .panicVarInsert
    | .error .dupInsert => .panicDupInsert
    | .ok s2 => .ok resolvedOpt s2

/-- The steps of `union` after a passed occurs check: the already-equal
shortcut, constraint resolution (only for a concrete `typ`), and the final
union/insert step. -/
def unionTail (equiv : Typ → Typ → Bool) (inst : Typ → Typ)
    (s1 : SubsState) (v : Nat) (t : Typ) : UnionOutcome :=
  if unionEqCheck s1 v t then .ok none s1
  else
    match (if t.getVar.isNone then resolveConstraints equiv inst s1 v t else .ok none) with
    | .error e => .fail e s1
    | .ok resolvedOpt => unionFinish s1 v t resolvedOpt

/-- `Substitution::union(id, typ)`, with the same step order as the source:
the same-variable shortcut, the occurs check (which lowers levels), then
`unionTail` (the already-equal shortcut, constraint resolution for concrete
types, and finally either a union-find merge plus the two `update_level`
calls, or an insertion into the type map). -/
def unionF (fuel : Nat) (equiv : Typ → Typ → Bool) (inst : Typ → Typ)
    (s : SubsState) (v : Nat) (t : Typ) : UnionOutcome :=
  if sameVar t v then .ok none s
  else
    match occursChk fuel s v t with
    | none => .fuelOut
    | some (true, s1) => .fail (.occursE (.tvar v) t) s1
    | some (false, s1) => unionTail equiv inst s1 v t

/-- The flattening loop of `typecheck::unroll_typ`: walk down the spine of
nested `App`s, collecting all argument lists (left to right). -/
def unrollApp : Typ → List Typ → Typ × List Typ
  | .app l rest, acc => unrollApp l (rest ++ acc)
  | cur, acc => (cur, acc)

/-- The collecting loop of `typecheck::unroll_record`: walk down the spine of
nested `ExtendRow`s, concatenating the type-field and field lists. -/
def unrollRow : Typ → List (Symbol × Typ) → List (Symbol × Typ) →
    Typ × List (Symbol × Typ) × List (Symbol × Typ)
  | .extendRow ts fs rest, accT, accF => unrollRow rest (accT ++ ts) (accF ++ fs)
  | cur, accT, accF => (cur, accT, accF)

/-- `typecheck::unroll_record`: `Some` only for an `ExtendRow` whose tail is
itself an `ExtendRow`, and only when something was collected. -/
def unrollRecordU : Typ → Option Typ
  | .extendRow ts fs rest =>
    match rest with
    | .extendRow _ _ _ =>
      let r := unrollRow rest ts fs
      if r.2.1.isEmpty && r.2.2.isEmpty then none else some (.extendRow r.2.1 r.2.2 r.1)
    | _ => none
  | _ => none

/-- `typecheck::unroll_typ`: flattens one spine of nested `App`s
(`App(App(f,xs),ys) → App(f, xs++ys)`); for a non-`App` it tries
`unroll_record`; for an `App` whose head is not an `App` it returns `None`. -/
def unrollTyp : Typ → Option Typ
  | .app l rest =>
    match l with
    | .app _ _ =>
      let r := unrollApp l rest
      if r.2.isEmpty then none else some (.app r.1 r.2)
    | _ => none
  | t => unrollRecordU t

mutual
/-- Modelled from the spec (§4.1): the variable-replacement pass of
`Substitution::set_type` — "walks the type rewriting every `Variable` to its
substituted form".  The traversal itself (`base::types::walk_move_type`) is
not among the sources; the model replaces every variable by its
`find_type_for_var` type, recursively, following the traversal of
`Typ.children`.  Fuel is spent at every node (a cyclic type map would make
the source walk loop). -/
def substF (s : SubsState) : Nat → Typ → Option Typ
  | 0, _ => none
  | fuel + 1, t =>
    match t with
    | .tvar v =>
      match findTypeForVar s v with
      | some u => substF s fuel u
      | none => some t
    | .forallT ps b => (substF s fuel b).map (.forallT ps ·)
    | .app h args =>
      (substF s fuel h).bind fun h2 => (substFL s fuel args).map (.app h2 ·)
    | .record r => (substF s fuel r).map (.record ·)
    | .variant r => (substF s fuel r).map (.variant ·)
    | .extendRow ts fs rest =>
      (substFP s fuel ts).bind fun ts2 =>
        (substFP s fuel fs).bind fun fs2 => (substF s fuel rest).map (.extendRow ts2 fs2 ·)
    | t => some t
termination_by structural fuel => fuel

/-- Variable replacement over a list of types. -/
def substFL (s : SubsState) : Nat → List Typ → Option (List Typ)
  | 0, _ => none
  | _ + 1, [] => some []
  | fuel + 1, t :: ts =>
    (substF s fuel t).bind fun t2 => (substFL s fuel ts).map (t2 :: ·)
termination_by structural fuel => fuel

/-- Variable replacement over a list of named fields. -/
def substFP (s : SubsState) : Nat → List (Symbol × Typ) → Option (List (Symbol × Typ))
  | 0, _ => none
  | _ + 1, [] => some []
  | fuel + 1, (n, t) :: ts =>
    (substF s fuel t).bind fun t2 => (substFP s fuel ts).map ((n, t2) :: ·)
termination_by structural fuel => fuel
end

/-- One `unroll_typ` step, keeping the type when it returns `None`. -/
def unrollStep (t : Typ) : Typ := (unrollTyp t).getD t

mutual
/-- Modelled from the spec (§4.1): the unrolling pass of
`Substitution::set_type` — after substitution the type "then attempts to
unroll nested applications" into canonical single-layer form.  The model
applies the source's `unroll_typ` at every node, children first. -/
def unrollAll : Typ → Typ
  | .forallT ps b => unrollStep (.forallT ps (unrollAll b))
  | .app h args => unrollStep (.app (unrollAll h) (unrollAllL args))
  | .record r => unrollStep (.record (unrollAll r))
  | .variant r => unrollStep (.variant (unrollAll r))
  | .extendRow ts fs rest =>
    unrollStep (.extendRow (unrollAllP ts) (unrollAllP fs) (unrollAll rest))
  | t => unrollStep t

/-- Unrolling over a list of types. -/
def unrollAllL : List Typ → List Typ
  | [] => []
  | t :: ts => unrollAll t :: unrollAllL ts

/-- Unrolling over a list of named fields. -/
def unrollAllP : List (Symbol × Typ) → List (Symbol × Typ)
  | [] => []
  | (n, t) :: ts => (n, unrollAll t) :: unrollAllP ts
end

/-- Modelled `Substitution::set_type`: full variable replacement followed by
full unrolling. -/
def setTypeM (s : SubsState) (fuel : Nat) (t : Typ) : Option Typ :=
  (substF s fuel t).map unrollAll

/-! ## The alias resolver (`base/src/resolve.rs`) -/

/-- The data of an `AliasRef` (`base::types::AliasData`, modelled from the
spec: a named type with parameters and an unresolved body; `typ()` and
`unresolved_type()` both denote the body). -/
structure AliasD where
  name : Symbol
  params : List Symbol
  body : Typ

/-- The part of the type environment that alias resolution consumes:
`find_type_info`. -/
abbrev TypeInfoEnv := Symbol → Option AliasD

mutual
/-- Substitution of symbols by types (modelled: used for `apply_args` and
skolemization; shadowing by inner binders is not tracked). -/
def substGen (m : List (Symbol × Typ)) : Typ → Typ
  | .generic g => ((m.lookup g).getD (.generic g))
  | .forallT ps b => .forallT ps (substGen m b)
  | .app h args => .app (substGen m h) (substGenL m args)
  | .record r => .record (substGen m r)
  | .variant r => .variant (substGen m r)
  | .extendRow ts fs rest => .extendRow (substGenP m ts) (substGenP m fs) (substGen m rest)
  | t => t

/-- Symbol substitution over a list of types. -/
def substGenL (m : List (Symbol × Typ)) : List Typ → List Typ
  | [] => []
  | t :: ts => substGen m t :: substGenL m ts

/-- Symbol substitution over a list of named fields. -/
def substGenP (m : List (Symbol × Typ)) : List (Symbol × Typ) → List (Symbol × Typ)
  | [] => []
  | (n, t) :: ts => (n, substGen m t) :: substGenP m ts
end

/-- Strip the outer `Forall` binders, collecting their parameters. -/
def peelForalls : Typ → List Symbol × Typ
  | .forallT ps b =>
    let r := peelForalls b
    (ps ++ r.1, r.2)
  | t => ([], t)

/-- Modelled from the spec (glossary): `Type::skolemize` with an empty name
map — replace the `forall`-bound variables with rigid skolems. -/
def skolemizeM (t : Typ) : Typ :=
  let r := peelForalls t
  substGen (r.1.map fun p => (p, Typ.skolem p 0)) r.2

/-- `Type::remove_forall` (modelled): strip `Forall` binders. -/
def removeForall : Typ → Typ
  | .forallT _ b => removeForall b
  | t => t

/-- `Type::unapplied_args` (modelled): the argument list of an `App`, else
nothing. -/
def unappliedArgs : Typ → List Typ
  | .app _ args => args
  | _ => []

/-- `Type::alias_ident` (modelled): the symbol at the head of the type — an
`Ident`'s symbol, an `Alias`'s name, through `App` heads. -/
def aliasIdent : Typ → Option Symbol
  | .ident s => some s
  | .aliasT n _ _ => some n
  | .app h _ => aliasIdent h
  | _ => none

/-- `Type::apply_args` on an alias body (modelled from the spec: "expands one
level by applying the alias body to the type arguments", `None` when the
argument count does not match the parameter count). -/
def applyArgsM (params : List Symbol) (args : List Typ) (body : Typ) : Option Typ :=
  if params.length = args.length then some (substGen (params.zip args) body) else none

/-- `resolve::Error`. -/
inductive ResolveError where
  | undefinedType : Symbol → ResolveError

/-- The inner `extract_alias` of `resolve::peek_alias`: an `Alias` head is
extracted only when its parameter count equals the number of applied
arguments collected on the way down. -/
def extractAlias : Typ → Nat → Option AliasD
  | .aliasT n ps b, count => if ps.length = count then some ⟨n, ps, b⟩ else none
  | .app h args, count => extractAlias h (args.length + count)
  | _, _ => none

/-- `resolve::peek_alias`. -/
def peekAliasE (env : TypeInfoEnv) (t : Typ) : Except ResolveError (Option AliasD) :=
  let maybeAlias := extractAlias t 0
  match aliasIdent t with
  | some id =>
    match maybeAlias with
    | some a => .ok (some a)
    | none =>
      match env id with
      | some a => .ok (some a)
      | none => .error (.undefinedType id)
  | none => .ok none

/-- `resolve::remove_alias`: skolemize, peek the alias, refuse an `Opaque`
body, apply the body to the unapplied arguments. -/
def removeAliasE (env : TypeInfoEnv) (t : Typ) : Except ResolveError (Option Typ) :=
  let t' := skolemizeM t
  match peekAliasE env t' with
  | .error e => .error e
  | .ok none => .ok none
  | .ok (some a) =>
    match removeForall a.body with
    | .opq => .ok none
    | _ => .ok (applyArgsM a.params (unappliedArgs t') a.body)

/-- `resolve::remove_aliases`: iterate `remove_alias` while it returns
`Ok(Some(_))`.  The source's `while let` loop is unbounded; `none` models not
reaching a fixed point within the fuel. -/
def removeAliasesF (env : TypeInfoEnv) : Nat → Typ → Option Typ
  | 0, _ => none
  | n + 1, t =>
    match removeAliasE env t with
    | .ok (some t2) => removeAliasesF env n t2
    | _ => some t

/-! ## `Typecheck::find_record` (`check/src/typecheck.rs`) -/

/-- `base::types::RecordSelector`. -/
inductive RecordSelector where
  | exact : RecordSelector
  | subset : RecordSelector

/-- The `UndefinedRecord` type error (the only one `find_record` produces). -/
inductive FindRecordError where
  | undefinedRecord : List Symbol → FindRecordError

/-- `Typecheck::find_record`: an empty field list is rejected outright (the
comment in the source explains that an empty list would match any record);
otherwise the environment's `find_record` is consulted and `None` becomes
`UndefinedRecord`. -/
def tcFindRecord (envFind : List Symbol → RecordSelector → Option (Typ × Typ))
    (fields : List Symbol) (sel : RecordSelector) : Except FindRecordError (Typ × Typ) :=
  if fields.isEmpty then .error (.undefinedRecord fields)
  else
    match envFind fields sel with
    | some r => .ok r
    | none => .error (.undefinedRecord fields)

/-! ## Derived notions used by the claims -/

/-- A type environment containing the alias produced by `type T = T`: the
alias named `3` whose body is the unresolved reference `Ident 3`. -/
def selfAliasEnv : TypeInfoEnv := fun s => if s = 3 then some ⟨3, [], .ident 3⟩ else none

/-- Whether the head of a type (through `App` heads) is an `Ident` — the
"unresolved `Ident`" head of claim C7. -/
def isIdentHead : Typ → Bool
  | .ident _ => true
  | .app h _ => isIdentHead h
  | _ => false

/-- The invariant that the `types` map never holds a type whose head is a
variable (the condition guarded by the first `panic!` in
`Substitution::insert`). -/
def TypesConcrete (s : SubsState) : Prop :=
  ∀ i u, s.types i = some u → u.getVar = none

/-- The quick-find invariant of `QuickFindUf`: every stored set id is a
representative (its own set id). -/
def QuickFind (s : SubsState) : Prop :=
  ∀ i, s.link (s.link i) = s.link i

/-- Links of created variables stay among created variables. -/
def LinkRange (s : SubsState) : Prop :=
  ∀ i, i < s.varCount → s.link i < s.varCount

/-- The level invariant maintained by `get_level`'s clamping: a class
representative's stored level is at most the id of any class member (or the
member is the representative itself). -/
def LevelInv (s : SubsState) (v : Nat) : Prop :=
  s.link v = v ∨ s.level (s.link v) ≤ v

/-- The empty substitution (`Substitution::new` / after `clear`). -/
def sEmpty : SubsState :=
  ⟨0, fun i => i, fun _ => u32Max, fun _ => 0, fun _ => [], fun _ => none⟩

/-- The substitution holding exactly two fresh variables `0` and `1`. -/
def sTwo : SubsState := (newVar (newVar sEmpty).2).2

/-- A trivial `Equivalent` oracle (accepts everything). -/
def eqvAll : Typ → Typ → Bool := fun _ _ => true

/-- A trivial `instantiate` (types without `forall` instantiate to
themselves). -/
def instId : Typ → Typ := fun t => t

mutual
/-- Depth of a type along the traversal of `substF` (leaves are `0`). -/
def tdepth : Typ → Nat
  | .forallT _ b => tdepth b + 1
  | .app h args => max (tdepth h) (tdepthL args) + 1
  | .record r => tdepth r + 1
  | .variant r => tdepth r + 1
  | .extendRow ts fs rest => max (max (tdepthP ts) (tdepthP fs)) (tdepth rest) + 1
  | _ => 0

/-- Depth of a list of types. -/
def tdepthL : List Typ → Nat
  | [] => 0
  | t :: ts => max (tdepth t) (tdepthL ts) + 1

/-- Depth of a list of named fields. -/
def tdepthP : List (Symbol × Typ) → Nat
  | [] => 0
  | (_, t) :: ts => max (tdepth t) (tdepthP ts) + 1
end

mutual
/-- A type is fully substituted: no variable in it (along the `substF`
traversal) has a type in the substitution. -/
def noRepl (s : SubsState) : Typ → Bool
  | .tvar v => (findTypeForVar s v).isNone
  | .forallT _ b => noRepl s b
  | .app h args => noRepl s h && noReplL s args
  | .record r => noRepl s r
  | .variant r => noRepl s r
  | .extendRow ts fs rest => noReplP s ts && noReplP s fs && noRepl s rest
  | _ => true

/-- Full substitutedness of a list of types. -/
def noReplL (s : SubsState) : List Typ → Bool
  | [] => true
  | t :: ts => noRepl s t && noReplL s ts

/-- Full substitutedness of a list of named fields. -/
def noReplP (s : SubsState) : List (Symbol × Typ) → Bool
  | [] => true
  | (_, t) :: ts => noRepl s t && noReplP s ts
end

mutual
/-- Canonical form: `unroll_typ` has nothing to do at any node. -/
def canon : Typ → Bool
  | .forallT ps b => (unrollTyp (.forallT ps b)).isNone && canon b
  | .app h args => (unrollTyp (.app h args)).isNone && canon h && canonL args
  | .record r => (unrollTyp (.record r)).isNone && canon r
  | .variant r => (unrollTyp (.variant r)).isNone && canon r
  | .extendRow ts fs rest =>
    (unrollTyp (.extendRow ts fs rest)).isNone && canonP ts && canonP fs && canon rest
  | t => (unrollTyp t).isNone

/-- Canonical form of a list of types. -/
def canonL : List Typ → Bool
  | [] => true
  | t :: ts => canon t && canonL ts

/-- Canonical form of a list of named fields. -/
def canonP : List (Symbol × Typ) → Bool
  | [] => true
  | (_, t) :: ts => canon t && canonP ts
end

/-- Whether a type is an `App` (the head condition of `unroll_typ`). -/
def isApp : Typ → Bool
  | .app _ _ => true
  | _ => false

/-- Whether a type is an `ExtendRow` (the tail condition of
`unroll_record`). -/
def isER : Typ → Bool
  | .extendRow _ _ _ => true
  | _ => false

/-- A substitution mapping variable `0` to `App (Builtin 9) [Hole]`, used by
the `set_type` idempotence witness. -/
def sSetType : SubsState :=
  { (newVar sEmpty).2 with
    types := fun i => if i = 0 then some (.app (.builtin 9) [.hole]) else none }

/-- Whether a union outcome is `Ok(None)`. -/
def isOkNone : UnionOutcome → Bool
  | .ok none _ => true
  | _ => false

/-- The state carried by an `ok` outcome (the empty state otherwise). -/
def okStateD : UnionOutcome → SubsState
  | .ok _ s => s
  | _ => sEmpty

mutual
/-- All variable ids of a type are below `n` (created variables). -/
def varsB (n : Nat) : Typ → Bool
  | .tvar v => decide (v < n)
  | .forallT _ b => varsB n b
  | .app h args => varsB n h && varsBL n args
  | .record r => varsB n r
  | .variant r => varsB n r
  | .extendRow ts fs rest => varsBP n ts && varsBP n fs && varsB n rest
  | _ => true

/-- `varsB` over a list of types. -/
def varsBL (n : Nat) : List Typ → Bool
  | [] => true
  | t :: ts => varsB n t && varsBL n ts

/-- `varsB` over a list of named fields. -/
def varsBP (n : Nat) : List (Symbol × Typ) → Bool
  | [] => true
  | (_, t) :: ts => varsB n t && varsBP n ts
end

/-- The occurs walk of `substitution::occurs`, additionally collecting the
encountered variables (the variables "appearing in `t` under the
substitution", each of which has its level lowered by `update_level`):
`occursGo` with the flag-raising case mapped to `none`. -/
def occursVars (v : Nat) : Nat → SubsState → List Typ → Option (List Nat × SubsState)
  | 0, _, _ => none
  | _ + 1, s, [] => some ([], s)
  | fuel + 1, s, t :: rest =>
    let t' := real s t
    match t'.getVar with
    | some w =>
      if v = w then none
      else
        (occursVars v fuel (updateLevel s v w) (t'.children ++ rest)).map
          (fun p => (w :: p.1, p.2))
    | none => occursVars v fuel s (t'.children ++ rest)

/-- The type-map part of the reachable-state invariants: every stored type
has all its variables among the created ones. -/
def TypesBelow (s : SubsState) : Prop :=
  ∀ i u, s.types i = some u → varsB s.varCount u = true

/-- The variable a `get_level` query resolves to (the head of
`find_type_for_var`, or the queried variable itself). -/
def resolveVar (s : SubsState) (x : Nat) : Nat :=
  match findTypeForVar s x with
  | some u => u.getVar.getD x
  | none => x

/-! ## Claim C1 -/

/-- Claim C1 (code bug): `typecheck_expr` does *not* terminate on every
input.  The `Projection` case of `typecheck_` calls
`Typecheck::remove_aliases`, which is `resolve::remove_aliases`'s unguarded
`while let Ok(Some(new)) = remove_alias(..)` loop; with the self-referential
alias `type T = T` in scope, expanding `T` yields `T` again, so the loop
never reaches a fixed point: the modelled loop exhausts every fuel bound. -/
theorem c1_remove_aliases_diverges :
    ∀ n : Nat, removeAliasesF selfAliasEnv n (.ident 3) = none := by
  intro n
  induction n with
  | zero => rfl
  | succ n ih =>
    have hstep : removeAliasE selfAliasEnv (.ident 3) = .ok (some (.ident 3)) := rfl
    simp only [removeAliasesF, hstep]
    exact ih

/-! ## Claim C5 -/

/-- Claim C5, counterexample: when both union-find nodes constrain the same
symbol, `left.constraints.extend(right.constraints)` (a `HashMap::extend`)
replaces the left node's candidate list with the right one's, so the merged
map is not the concatenation of the two maps: the left candidate list
`[Hole]` for symbol `1` is lost entirely. -/
theorem c5_counterexample :
    (ubUnion ⟨0, 5, [(1, [Typ.hole])]⟩ ⟨0, 5, [(1, [Typ.emptyRow])]⟩).2.constraints
        = [(1, [Typ.emptyRow])]
      ∧ (1, [Typ.hole]) ∉
        (ubUnion ⟨0, 5, [(1, [Typ.hole])]⟩ ⟨0, 5, [(1, [Typ.emptyRow])]⟩).2.constraints := by
  refine ⟨rfl, ?_⟩
  intro hmem
  have heq : (ubUnion ⟨0, 5, [(1, [Typ.hole])]⟩ ⟨0, 5, [(1, [Typ.emptyRow])]⟩).2.constraints
      = [(1, [Typ.emptyRow])] := rfl
  rw [heq] at hmem
  simp at hmem

/-- Claim C5, amended: the merged root's level is the minimum of the two
levels, and when the levels differ the lower-level node becomes the
representative; the constraint map, however, is `left` extended by `right`
(the right node's candidate list replacing the left one's on a shared
symbol), not a concatenation. -/
theorem c5_amended (l r : UnionByLevel) :
    (ubUnion l r).2.level = min l.level r.level
      ∧ (l.level < r.level → (ubUnion l r).1 = true)
      ∧ (r.level < l.level → (ubUnion l r).1 = false)
      ∧ (ubUnion l r).2.constraints = extendC l.constraints r.constraints := by
  unfold ubUnion
  rcases hc : compare l.level r.level with _ | _ | _
  · have hlt : l.level < r.level := Nat.compare_eq_lt.mp hc
    refine ⟨by simp [Nat.min_eq_left (Nat.le_of_lt hlt)], fun _ => rfl, fun h => ?_, rfl⟩
    exact absurd h (Nat.not_lt.mpr (Nat.le_of_lt hlt))
  · have heq : l.level = r.level := Nat.compare_eq_eq.mp hc
    refine ⟨by simp [heq], fun h => ?_, fun h => ?_, rfl⟩
    · exact absurd h (by omega)
    · exact absurd h (by omega)
  · have hgt : r.level < l.level := Nat.compare_eq_gt.mp hc
    refine ⟨by simp [Nat.min_eq_right (Nat.le_of_lt hgt)], fun h => ?_, fun _ => rfl, rfl⟩
    exact absurd h (Nat.not_lt.mpr (Nat.le_of_lt hgt))

/-- Witness for the amended C5 at a concrete input: with levels `1 < 2` the
left node is the representative and the root level is `1`. -/
theorem c5_witness :
    (ubUnion ⟨0, 1, []⟩ ⟨0, 2, []⟩).2.level = min 1 2
      ∧ (ubUnion ⟨0, 1, []⟩ ⟨0, 2, []⟩).1 = true :=
  ⟨(c5_amended ⟨0, 1, []⟩ ⟨0, 2, []⟩).1,
    (c5_amended ⟨0, 1, []⟩ ⟨0, 2, []⟩).2.1 (by decide)⟩

/-! ## Claim C7 -/

/-- Claim C7, counterexample: `peek_alias` reports `UndefinedType` for
`App(Alias 7 ⟨2 params⟩, [1 arg])` in an empty environment — the head is an
`Alias` (not an unresolved `Ident`), but its arity does not match, so
`extract_alias` fails and the environment fallback produces the error. -/
theorem c7_counterexample :
    peekAliasE (fun _ => none) (.app (.aliasT 7 [1, 2] .emptyRow) [.hole])
        = .error (.undefinedType 7)
      ∧ isIdentHead (.app (.aliasT 7 [1, 2] .emptyRow) [.hole]) = false :=
  ⟨rfl, rfl⟩

/-- Claim C7, amended: `peek_alias` errors `UndefinedType id` exactly when
the head symbol is `id` (whether an `Ident` or an arity-mismatched `Alias`
head), `extract_alias` found nothing, and the environment lookup fails; an
`Alias` head under an `App` is extracted exactly when its parameter count
equals the argument count; and `remove_alias` returns `Ok None` when the
peeked alias body is `Opaque` or cannot be applied to the arguments. -/
theorem c7_amended (env : TypeInfoEnv) (t : Typ) (id : Symbol) (a : AliasD)
    (nm : Symbol) (ps : List Symbol) (args : List Typ) (b : Typ) :
    (peekAliasE env t = .error (.undefinedType id) ↔
        aliasIdent t = some id ∧ extractAlias t 0 = none ∧ env id = none)
      ∧ ((extractAlias (.app (.aliasT nm ps b) args) 0).isSome ↔ ps.length = args.length)
      ∧ (peekAliasE env (skolemizeM t) = .ok (some a) →
          (removeForall a.body = .opq ∨
            applyArgsM a.params (unappliedArgs (skolemizeM t)) a.body = none) →
          removeAliasE env t = .ok none) := by
  refine ⟨?_, ?_, ?_⟩
  · rcases h1 : aliasIdent t with _ | j
    · simp [peekAliasE, h1]
    · rcases h2 : extractAlias t 0 with _ | a2
      · rcases h3 : env j with _ | a3
        · simp only [peekAliasE, h1, h2, h3, Except.error.injEq,
            ResolveError.undefinedType.injEq]
          constructor
          · intro he
            subst he
            exact ⟨rfl, trivial, h3⟩
          · rintro ⟨hj, -, -⟩
            injection hj
        · simp only [peekAliasE, h1, h2, h3]
          constructor
          · intro he; cases he
          · rintro ⟨hj, -, henv⟩
            injection hj with hj2
            subst hj2
            rw [h3] at henv; cases henv
      · simp only [peekAliasE, h1, h2]
        constructor
        · intro he; cases he
        · rintro ⟨-, hx, -⟩
          cases hx
  · unfold extractAlias
    unfold extractAlias
    constructor
    · intro hs
      split at hs
      · omega
      · simp at hs
    · intro hl
      split
      · simp
      · omega
  · intro hpeek hbad
    simp only [removeAliasE, hpeek]
    rcases hbad with hopq | happ
    · rw [hopq]
    · split
      · rfl
      · rw [happ]

/-- Witness for the amended C7 at concrete inputs: the error characterization
applied to `Ident 9` in the empty environment, and `remove_alias` on an alias
with an `Opaque` body. -/
theorem c7_witness :
    peekAliasE (fun _ => none) (.ident 9) = .error (.undefinedType 9)
      ∧ removeAliasE (fun _ => none) (.aliasT 4 [] .opq) = .ok none :=
  ⟨(c7_amended (fun _ => none) (.ident 9) 9 ⟨0, [], .hole⟩ 0 [] [] .hole).1.mpr
      ⟨rfl, rfl, rfl⟩,
    (c7_amended (fun _ => none) (.aliasT 4 [] .opq) 0 ⟨4, [], .opq⟩ 0 [] [] .hole).2.2
      rfl (Or.inl rfl)⟩

/-! ## Claim C8 -/

/-- Claim C8, counterexample: with an empty field list `Typecheck::find_record`
returns `UndefinedRecord` even though the environment lookup would succeed —
the claimed "error iff the field list is non-empty and the lookup fails" is
violated on the empty list. -/
theorem c8_counterexample :
    tcFindRecord (fun _ _ => some (.hole, .hole)) [] .exact
        = .error (.undefinedRecord [])
      ∧ (fun _ _ => some (Typ.hole, Typ.hole)) ([] : List Symbol) RecordSelector.exact
        = some (.hole, .hole)
      ∧ ([] : List Symbol).isEmpty = true :=
  ⟨rfl, rfl, rfl⟩

/-- Claim C8, amended: `Typecheck::find_record` returns `UndefinedRecord`
exactly when the field list is empty (rejected outright, per the comment in
the source) or the environment's `find_record` returns `None`. -/
theorem c8_amended (envFind : List Symbol → RecordSelector → Option (Typ × Typ))
    (fields : List Symbol) (sel : RecordSelector) :
    tcFindRecord envFind fields sel = .error (.undefinedRecord fields) ↔
      (fields = [] ∨ envFind fields sel = none) := by
  unfold tcFindRecord
  rcases fields with _ | ⟨f, fs⟩
  · simp
  · simp only [List.isEmpty_cons, Bool.false_eq_true, if_false]
    rcases h : envFind (f :: fs) sel with _ | r
    · simp
    · simp

/-! ## Shared lemmas about the substitution operations -/

theorem getLevel_snd_link (s : SubsState) (v : Nat) : (getLevel s v).2.link = s.link := rfl

theorem getLevel_snd_types (s : SubsState) (v : Nat) : (getLevel s v).2.types = s.types := rfl

theorem getLevel_snd_varCount (s : SubsState) (v : Nat) :
    (getLevel s v).2.varCount = s.varCount := rfl

theorem getLevel_snd_rank (s : SubsState) (v : Nat) : (getLevel s v).2.rank = s.rank := rfl

theorem getLevel_snd_constr (s : SubsState) (v : Nat) : (getLevel s v).2.constr = s.constr := rfl

theorem updateLevel_link (s : SubsState) (a b : Nat) : (updateLevel s a b).link = s.link := rfl

theorem updateLevel_types (s : SubsState) (a b : Nat) : (updateLevel s a b).types = s.types := rfl

theorem updateLevel_varCount (s : SubsState) (a b : Nat) :
    (updateLevel s a b).varCount = s.varCount := rfl

theorem updateLevel_rank (s : SubsState) (a b : Nat) : (updateLevel s a b).rank = s.rank := rfl

theorem updateLevel_constr (s : SubsState) (a b : Nat) :
    (updateLevel s a b).constr = s.constr := rfl

theorem unionUF_types (s : SubsState) (a b : Nat) : (unionUF s a b).types = s.types := by
  simp only [unionUF]
  split <;> rfl

theorem unionUF_varCount (s : SubsState) (a b : Nat) :
    (unionUF s a b).varCount = s.varCount := by
  simp only [unionUF]
  split <;> rfl

/-- Everything `insertT` guarantees on success: only the `types` map changes,
by binding exactly the key `var`, the inserted type is concrete, and the key
was free. -/
theorem insertT_ok (s : SubsState) (v : Nat) (t : Typ) (s' : SubsState)
    (h : insertT s v t = .ok s') :
    s'.types = (fun j => if j = v then some t else s.types j)
      ∧ s'.link = s.link ∧ s'.varCount = s.varCount ∧ s'.level = s.level
      ∧ s'.rank = s.rank ∧ s'.constr = s.constr
      ∧ t.getVar = none ∧ s.types v = none := by
  unfold insertT at h
  split at h
  · cases h
  · next hvar =>
    split at h
    · cases h
    · next hfree =>
      cases h
      exact ⟨rfl, rfl, rfl, rfl, rfl, rfl, hvar, hfree⟩

/-- The occurs walk only mutates levels: every other field of the state is
preserved. -/
theorem occursGo_pres (v : Nat) :
    ∀ (fuel : Nat) (s : SubsState) (ts : List Typ) (b : Bool) (s' : SubsState),
      occursGo v fuel s ts = some (b, s') →
      s'.varCount = s.varCount ∧ s'.link = s.link ∧ s'.rank = s.rank ∧
        s'.constr = s.constr ∧ s'.types = s.types := by
  intro fuel
  induction fuel with
  | zero => intro s ts b s' h; cases h
  | succ n ih =>
    intro s ts b s' h
    match ts with
    | [] =>
      simp only [occursGo] at h
      injection h with h1
      cases h1
      exact ⟨rfl, rfl, rfl, rfl, rfl⟩
    | t :: rest =>
      simp only [occursGo] at h
      split at h
      · split at h
        · injection h with h1
          cases h1
          exact ⟨rfl, rfl, rfl, rfl, rfl⟩
        · have := ih (updateLevel s _ _) _ b s' h
          simpa [updateLevel_link, updateLevel_types, updateLevel_varCount,
            updateLevel_rank, updateLevel_constr] using this
      · exact ih s _ b s' h

/-- Constraint resolution never turns a concrete type into a variable: the
replacement arms only install the resolved candidate when the current type is
a strictly-greater variable or the candidate is concrete. -/
theorem resolveConsGo_concrete (equiv : Typ → Typ → Bool) (inst : Typ → Typ) :
    ∀ (cs : List (Symbol × List Typ)) (t : Typ) (changed : Bool) (r : Typ),
      t.getVar = none → resolveConsGo equiv inst cs t changed = .ok (some r) →
      r.getVar = none := by
  intro cs
  induction cs with
  | nil =>
    intro t changed r ht h
    simp only [resolveConsGo] at h
    rcases changed with _ | _
    · simp at h
    · simp only [if_pos] at h
      injection h with h1
      injection h1 with h2
      exact h2 ▸ ht
  | cons hd tl ih =>
    intro t changed r ht h
    simp only [resolveConsGo] at h
    split at h
    · cases h
    · split at h
      · next x y hx hy =>
        rw [ht] at hx
        cases hx
      · next x hres =>
        exact ih _ true r hres h
      · exact ih t changed r ht h

/-- `resolve_constraints` on a concrete type yields a concrete type. -/
theorem resolveConstraints_concrete (equiv : Typ → Typ → Bool) (inst : Typ → Typ)
    (s : SubsState) (v : Nat) (t r : Typ) (ht : t.getVar = none)
    (h : resolveConstraints equiv inst s v t = .ok (some r)) : r.getVar = none :=
  resolveConsGo_concrete equiv inst _ t false r ht h

/-- Resolving `real` on a variable with a `find_type_for_var` result. -/
theorem real_tvar_some (s : SubsState) (v : Nat) (x : Typ)
    (hfv : findTypeForVar s v = some x) : real s (.tvar v) = x := by
  have hr : real s (.tvar v) = (findTypeForVar s v).getD (.tvar v) := rfl
  rw [hr, hfv]
  rfl

/-- Resolving `real` on a concrete type is the identity. -/
theorem real_concrete (s : SubsState) (t : Typ) (ht : t.getVar = none) : real s t = t := by
  unfold real
  rw [ht]

/-- In a substitution whose `types` map is variable-free,
`find_type_for_var v` never returns a type headed by `v` itself: it returns
either a stored concrete type or the distinct representative variable. -/
theorem findTypeForVar_not_self (s : SubsState) (v : Nat) (x : Typ)
    (hconc : TypesConcrete s) (hfv : findTypeForVar s v = some x) :
    x.getVar ≠ some v := by
  simp only [findTypeForVar] at hfv
  split at hfv
  · cases hfv
  · split at hfv
    · next hty =>
      injection hfv with h3
      rw [← h3, hconc _ _ hty]
      exact fun hf => nomatch hf
    · split at hfv
      · cases hfv
      · next hne =>
        injection hfv with h3
        rw [← h3]
        intro hf
        injection hf with h4
        exact hne h4.symm

/-- After inserting a concrete type for the created variable `v`, `real` on
`v` is not headed by `v`: it is the inserted type (when `v` is its own
representative), a stored concrete type, or the distinct representative. -/
theorem real_after_insert (s : SubsState) (v : Nat) (t2 : Typ) (s' : SubsState)
    (hconc : TypesConcrete s) (hv : v < s.varCount) (ht2 : t2.getVar = none)
    (hvc : s'.varCount = s.varCount) (_hlink : s'.link = s.link)
    (hty : s'.types = fun j => if j = v then some t2 else s.types j) :
    (real s' (.tvar v)).getVar ≠ some v := by
  have hnle : ¬ s'.varCount ≤ v := by rw [hvc]; exact Nat.not_le.mpr hv
  have htys : ∀ j, s'.types j = if j = v then some t2 else s.types j := fun j => by rw [hty]
  by_cases hidx : s'.link v = v
  · have hfv : findTypeForVar s' v = some t2 := by
      simp only [findTypeForVar]
      rw [if_neg hnle, hidx, htys v, if_pos rfl]
    rw [real_tvar_some s' v t2 hfv, ht2]
    exact fun hf => nomatch hf
  · rcases hsome : s.types (s'.link v) with _ | u
    · have hfv : findTypeForVar s' v = some (.tvar (s'.link v)) := by
        simp only [findTypeForVar]
        rw [if_neg hnle, htys (s'.link v), if_neg hidx, hsome,
          if_neg (fun hx : v = s'.link v => hidx hx.symm)]
      rw [real_tvar_some s' v _ hfv]
      intro hf
      injection hf with h4
      exact hidx h4
    · have hfv : findTypeForVar s' v = some u := by
        simp only [findTypeForVar]
        rw [if_neg hnle, htys (s'.link v), if_neg hidx, hsome]
      rw [real_tvar_some s' v u hfv, hconc _ _ hsome]
      exact fun hf => nomatch hf

/-- `unionFinish` cannot reach the variable-insertion panic: it only calls
`insert` on a type it has matched as a non-variable. -/
theorem unionFinish_ne_panicVar (s1 : SubsState) (v : Nat) (t : Typ) (ro : Option Typ) :
    unionFinish s1 v t ro ≠ .panicVarInsert := by
  intro h
  simp only [unionFinish] at h
  split at h
  · cases h
  · next heq =>
    split at h
    · next hins =>
      unfold insertT at hins
      simp only [heq] at hins
      split at hins <;> cases hins
    · cases h
    · cases h

/-- On success, `unionFinish` either merged through the union-find (the
`types` map is untouched) or inserted a concrete type for exactly the key
`v`. -/
theorem unionFinish_ok_types (s1 : SubsState) (v : Nat) (t : Typ) (ro : Option Typ)
    (r : Option Typ) (s' : SubsState) (h : unionFinish s1 v t ro = .ok r s') :
    s'.types = s1.types
      ∨ ∃ t2, t2.getVar = none
          ∧ s'.types = (fun j => if j = v then some t2 else s1.types j)
          ∧ s'.link = s1.link ∧ s'.varCount = s1.varCount := by
  simp only [unionFinish] at h
  split at h
  · injection h with h1 h2
    subst h2
    left
    rw [updateLevel_types, updateLevel_types, unionUF_types]
  · split at h
    · cases h
    · cases h
    · next s2 hins =>
      injection h with h1 h2
      subst h2
      obtain ⟨hty, hlink, hvc, -, -, -, hvar, -⟩ := insertT_ok _ _ _ _ hins
      exact Or.inr ⟨_, hvar, hty, hlink, hvc⟩

/-- Success cases of `unionTail`: either the already-equal shortcut fired
(state unchanged), or constraint resolution succeeded and `unionFinish`
produced the result. -/
theorem unionTail_ok_cases (equiv : Typ → Typ → Bool) (inst : Typ → Typ)
    (s1 : SubsState) (v : Nat) (t : Typ) (r : Option Typ) (s' : SubsState)
    (h : unionTail equiv inst s1 v t = .ok r s') :
    (r = none ∧ s' = s1 ∧ unionEqCheck s1 v t = true)
      ∨ ∃ ro, unionEqCheck s1 v t = false
          ∧ (if t.getVar.isNone then resolveConstraints equiv inst s1 v t
              else .ok none) = .ok ro
          ∧ unionFinish s1 v t ro = .ok r s' := by
  simp only [unionTail] at h
  by_cases hc : unionEqCheck s1 v t = true
  · rw [if_pos hc] at h
    injection h with h1 h2
    exact Or.inl ⟨h1.symm, h2.symm, hc⟩
  · rw [if_neg hc] at h
    split at h
    · cases h
    · next ro hres => exact Or.inr ⟨ro, Bool.not_eq_true _ ▸ Bool.of_not_eq_true hc, hres, h⟩

/-- Success cases of `unionF`: the same-variable shortcut, or a passed
occurs check followed by a successful `unionTail`. -/
theorem unionF_ok_cases (fuel : Nat) (equiv : Typ → Typ → Bool) (inst : Typ → Typ)
    (s : SubsState) (v : Nat) (t : Typ) (r : Option Typ) (s' : SubsState)
    (h : unionF fuel equiv inst s v t = .ok r s') :
    (sameVar t v = true ∧ r = none ∧ s' = s)
      ∨ ∃ s1, sameVar t v = false ∧ occursChk fuel s v t = some (false, s1)
          ∧ unionTail equiv inst s1 v t = .ok r s' := by
  simp only [unionF] at h
  by_cases hs : sameVar t v = true
  · rw [if_pos hs] at h
    injection h with h1 h2
    exact Or.inl ⟨hs, h1.symm, h2.symm⟩
  · rw [if_neg hs] at h
    split at h
    · cases h
    · cases h
    · next s1 hocc => exact Or.inr ⟨s1, Bool.of_not_eq_true hs, hocc, h⟩

/-- On a concrete `t`, a true `unionEqCheck` means `v` has a stored type. -/
theorem unionEqCheck_concrete (s1 : SubsState) (v : Nat) (t : Typ)
    (ht : t.getVar = none) (hc : unionEqCheck s1 v t = true) :
    ∃ x, findTypeForVar s1 v = some x := by
  unfold unionEqCheck at hc
  rw [real_concrete s1 t ht, ht] at hc
  rcases hfv : findTypeForVar s1 v with _ | x
  · rw [hfv] at hc
    simp at hc
  · exact ⟨x, rfl⟩

/-- On a concrete `t`, the type handed to `unionFinish` is concrete. -/
theorem resolved_concrete (equiv : Typ → Typ → Bool) (inst : Typ → Typ)
    (s1 : SubsState) (v : Nat) (t : Typ) (ro : Option Typ) (ht : t.getVar = none)
    (hres : (if t.getVar.isNone then resolveConstraints equiv inst s1 v t
        else .ok none) = .ok ro) :
    (ro.getD t).getVar = none := by
  rw [ht] at hres
  simp only [Option.isNone, if_true] at hres
  rcases ro with _ | r0
  · exact ht
  · exact resolveConstraints_concrete equiv inst s1 v t r0 ht hres

/-! ## Lemmas for the `set_type` model (claim C6) -/

theorem noReplL_append (s : SubsState) (xs ys : List Typ) :
    noReplL s (xs ++ ys) = (noReplL s xs && noReplL s ys) := by
  induction xs with
  | nil => simp [noReplL]
  | cons x xs ih => simp [noReplL, ih, Bool.and_assoc]

theorem canonL_append (xs ys : List Typ) :
    canonL (xs ++ ys) = (canonL xs && canonL ys) := by
  induction xs with
  | nil => simp [canonL]
  | cons x xs ih => simp [canonL, ih, Bool.and_assoc]

theorem canonP_append (xs ys : List (Symbol × Typ)) :
    canonP (xs ++ ys) = (canonP xs && canonP ys) := by
  induction xs with
  | nil => simp [canonP]
  | cons x xs ih =>
    rcases x with ⟨n, t⟩
    simp [canonP, ih, Bool.and_assoc]

theorem noReplP_append (s : SubsState) (xs ys : List (Symbol × Typ)) :
    noReplP s (xs ++ ys) = (noReplP s xs && noReplP s ys) := by
  induction xs with
  | nil => simp [noReplP]
  | cons x xs ih =>
    rcases x with ⟨n, t⟩
    simp [noReplP, ih, Bool.and_assoc]


/-- The substitution pass produces fully substituted types whose depth is
below the spent fuel. -/
theorem substF_props (s : SubsState) : ∀ f : Nat,
    (∀ t r, substF s f t = some r → noRepl s r = true ∧ tdepth r < f)
      ∧ (∀ ts rs, substFL s f ts = some rs → noReplL s rs = true ∧ tdepthL rs < f)
      ∧ (∀ ps rs, substFP s f ps = some rs → noReplP s rs = true ∧ tdepthP rs < f) := by
  intro f
  induction f with
  | zero =>
    refine ⟨fun t r h => ?_, fun ts rs h => ?_, fun ps rs h => ?_⟩ <;>
      simp [substF, substFL, substFP] at h
  | succ n ih =>
    obtain ⟨ih1, ih2, ih3⟩ := ih
    refine ⟨?_, ?_, ?_⟩
    · intro t r h
      cases t with
      | tvar v =>
        simp only [substF] at h
        rcases hfv : findTypeForVar s v with _ | u
        · rw [hfv] at h
          injection h with h1
          subst h1
          refine ⟨?_, Nat.succ_pos n⟩
          simp [noRepl, hfv]
        · rw [hfv] at h
          obtain ⟨hn, hd⟩ := ih1 u r h
          exact ⟨hn, Nat.lt_succ_of_lt hd⟩
      | forallT ps b =>
        simp only [substF, Option.bind_eq_some, Option.map_eq_some', Option.some.injEq] at h
        obtain ⟨b', hb, rfl⟩ := h
        obtain ⟨hn, hd⟩ := ih1 b b' hb
        refine ⟨by simp [noRepl, hn], ?_⟩
        simp only [tdepth]
        omega
      | app hd args =>
        simp only [substF, Option.bind_eq_some, Option.map_eq_some', Option.some.injEq] at h
        obtain ⟨h', hh, args', hargs, rfl⟩ := h
        obtain ⟨hn1, hd1⟩ := ih1 hd h' hh
        obtain ⟨hn2, hd2⟩ := ih2 args args' hargs
        refine ⟨by simp [noRepl, hn1, hn2], ?_⟩
        simp only [tdepth]
        have hm := Nat.max_lt.mpr ⟨hd1, hd2⟩
        omega
      | record rw =>
        simp only [substF, Option.bind_eq_some, Option.map_eq_some', Option.some.injEq] at h
        obtain ⟨r', hr, rfl⟩ := h
        obtain ⟨hn, hd⟩ := ih1 rw r' hr
        refine ⟨by simp [noRepl, hn], ?_⟩
        simp only [tdepth]
        omega
      | variant rw =>
        simp only [substF, Option.bind_eq_some, Option.map_eq_some', Option.some.injEq] at h
        obtain ⟨r', hr, rfl⟩ := h
        obtain ⟨hn, hd⟩ := ih1 rw r' hr
        refine ⟨by simp [noRepl, hn], ?_⟩
        simp only [tdepth]
        omega
      | extendRow ts fs rest =>
        simp only [substF, Option.bind_eq_some, Option.map_eq_some', Option.some.injEq] at h
        obtain ⟨ts', hts, fs', hfs, rest', hrest, rfl⟩ := h
        obtain ⟨hn1, hd1⟩ := ih3 ts ts' hts
        obtain ⟨hn2, hd2⟩ := ih3 fs fs' hfs
        obtain ⟨hn3, hd3⟩ := ih1 rest rest' hrest
        refine ⟨by simp [noRepl, hn1, hn2, hn3], ?_⟩
        simp only [tdepth]
        have hm := Nat.max_lt.mpr ⟨Nat.max_lt.mpr ⟨hd1, hd2⟩, hd3⟩
        omega
      | hole =>
        simp only [substF] at h
        injection h with h1
        subst h1
        exact ⟨rfl, Nat.succ_pos n⟩
      | opq =>
        simp only [substF] at h
        injection h with h1
        subst h1
        exact ⟨rfl, Nat.succ_pos n⟩
      | builtin b =>
        simp only [substF] at h
        injection h with h1
        subst h1
        exact ⟨rfl, Nat.succ_pos n⟩
      | skolem nm i =>
        simp only [substF] at h
        injection h with h1
        subst h1
        exact ⟨rfl, Nat.succ_pos n⟩
      | generic g =>
        simp only [substF] at h
        injection h with h1
        subst h1
        exact ⟨rfl, Nat.succ_pos n⟩
      | emptyRow =>
        simp only [substF] at h
        injection h with h1
        subst h1
        exact ⟨rfl, Nat.succ_pos n⟩
      | aliasT nm ps b =>
        simp only [substF] at h
        injection h with h1
        subst h1
        exact ⟨rfl, Nat.succ_pos n⟩
      | ident i =>
        simp only [substF] at h
        injection h with h1
        subst h1
        exact ⟨rfl, Nat.succ_pos n⟩
    · intro ts rs h
      cases ts with
      | nil =>
        simp only [substFL] at h
        injection h with h1
        subst h1
        exact ⟨rfl, Nat.succ_pos n⟩
      | cons t ts =>
        simp only [substFL, Option.bind_eq_some, Option.map_eq_some', Option.some.injEq] at h
        obtain ⟨r', hr, rs', hrs, rfl⟩ := h
        obtain ⟨hn1, hd1⟩ := ih1 t r' hr
        obtain ⟨hn2, hd2⟩ := ih2 ts rs' hrs
        refine ⟨by simp [noReplL, hn1, hn2], ?_⟩
        simp only [tdepthL]
        have hm := Nat.max_lt.mpr ⟨hd1, hd2⟩
        omega
    · intro ps rs h
      cases ps with
      | nil =>
        simp only [substFP] at h
        injection h with h1
        subst h1
        exact ⟨rfl, Nat.succ_pos n⟩
      | cons p ps =>
        rcases p with ⟨nm, t⟩
        simp only [substFP, Option.bind_eq_some, Option.map_eq_some', Option.some.injEq] at h
        obtain ⟨r', hr, rs', hrs, rfl⟩ := h
        obtain ⟨hn1, hd1⟩ := ih1 t r' hr
        obtain ⟨hn2, hd2⟩ := ih3 ps rs' hrs
        refine ⟨by simp [noReplP, hn1, hn2], ?_⟩
        simp only [tdepthP]
        have hm := Nat.max_lt.mpr ⟨hd1, hd2⟩
        omega

/-- The substitution pass is the identity on a fully substituted type, with
any fuel exceeding its depth. -/
theorem substF_id (s : SubsState) : ∀ f : Nat,
    (∀ t, noRepl s t = true → tdepth t < f → substF s f t = some t)
      ∧ (∀ ts, noReplL s ts = true → tdepthL ts < f → substFL s f ts = some ts)
      ∧ (∀ ps, noReplP s ps = true → tdepthP ps < f → substFP s f ps = some ps) := by
  intro f
  induction f with
  | zero =>
    exact ⟨fun t _ hd => absurd hd (Nat.not_lt_zero _),
      fun ts _ hd => absurd hd (Nat.not_lt_zero _),
      fun ps _ hd => absurd hd (Nat.not_lt_zero _)⟩
  | succ n ih =>
    obtain ⟨ih1, ih2, ih3⟩ := ih
    refine ⟨?_, ?_, ?_⟩
    · intro t hn hd
      cases t with
      | tvar v =>
        simp only [noRepl, Option.isNone_iff_eq_none] at hn
        simp [substF, hn]
      | forallT ps b =>
        simp only [noRepl] at hn
        simp only [tdepth] at hd
        simp [substF, ih1 b hn (by omega)]
      | app hd2 args =>
        simp only [noRepl, Bool.and_eq_true] at hn
        simp only [tdepth] at hd
        have hm : max (tdepth hd2) (tdepthL args) < n := by omega
        rw [Nat.max_lt] at hm
        simp [substF, ih1 hd2 hn.1 hm.1, ih2 args hn.2 hm.2]
      | record rw =>
        simp only [noRepl] at hn
        simp only [tdepth] at hd
        simp [substF, ih1 rw hn (by omega)]
      | variant rw =>
        simp only [noRepl] at hn
        simp only [tdepth] at hd
        simp [substF, ih1 rw hn (by omega)]
      | extendRow ts fs rest =>
        simp only [noRepl, Bool.and_eq_true] at hn
        simp only [tdepth] at hd
        have hm : max (max (tdepthP ts) (tdepthP fs)) (tdepth rest) < n := by omega
        rw [Nat.max_lt, Nat.max_lt] at hm
        simp [substF, ih3 ts hn.1.1 hm.1.1, ih3 fs hn.1.2 hm.1.2, ih1 rest hn.2 hm.2]
      | hole => simp [substF]
      | opq => simp [substF]
      | builtin b => simp [substF]
      | skolem nm i => simp [substF]
      | generic g => simp [substF]
      | emptyRow => simp [substF]
      | aliasT nm ps b => simp [substF]
      | ident i => simp [substF]
    · intro ts hn hd
      cases ts with
      | nil => simp [substFL]
      | cons t ts =>
        simp only [noReplL, Bool.and_eq_true] at hn
        simp only [tdepthL] at hd
        have hm : max (tdepth t) (tdepthL ts) < n := by omega
        rw [Nat.max_lt] at hm
        simp [substFL, ih1 t hn.1 hm.1, ih2 ts hn.2 hm.2]
    · intro ps hn hd
      cases ps with
      | nil => simp [substFP]
      | cons p ps =>
        rcases p with ⟨nm, t⟩
        simp only [noReplP, Bool.and_eq_true] at hn
        simp only [tdepthP] at hd
        have hm : max (tdepth t) (tdepthP ps) < n := by omega
        rw [Nat.max_lt] at hm
        simp [substFP, ih1 t hn.1 hm.1, ih3 ps hn.2 hm.2]

theorem unrollApp_eq_self (cur : Typ) (acc : List Typ) (h : isApp cur = false) :
    unrollApp cur acc = (cur, acc) := by
  cases cur <;> first | rfl | simp [isApp] at h

theorem unrollRow_eq_self (cur : Typ) (accT accF : List (Symbol × Typ)) (h : isER cur = false) :
    unrollRow cur accT accF = (cur, accT, accF) := by
  cases cur <;> first | rfl | simp [isER] at h

/-- The `unroll_typ` flattening loop: the final head is not an `App`, and
full substitutedness and canonicity of the inputs carry over to the head and
the collected argument list. -/
theorem unrollApp_facts (s : SubsState) : ∀ (n : Nat) (cur : Typ) (acc : List Typ),
    sizeOf cur ≤ n →
    isApp (unrollApp cur acc).1 = false
      ∧ (noRepl s cur = true → noReplL s acc = true →
          noRepl s (unrollApp cur acc).1 = true ∧ noReplL s (unrollApp cur acc).2 = true)
      ∧ (canon cur = true → canonL acc = true →
          canon (unrollApp cur acc).1 = true ∧ canonL (unrollApp cur acc).2 = true) := by
  intro n
  induction n with
  | zero =>
    intro cur acc hsz
    exfalso
    cases cur <;> simp at hsz
  | succ n ihn =>
    intro cur acc hsz
    by_cases happ : isApp cur = true
    · rcases cur with _ | _ | _ | _ | _ | _ | _ | ⟨l, rest⟩ | _ | _ | _ | _ | _ | _ <;>
        try simp [isApp] at happ
      have hred : unrollApp (.app l rest) acc = unrollApp l (rest ++ acc) := rfl
      have hszl : sizeOf l ≤ n := by
        have hs := @Typ.app.sizeOf_spec l rest
        omega
      have ih := ihn l (rest ++ acc) hszl
      rw [hred]
      refine ⟨ih.1, ?_, ?_⟩
      · intro h1 h2
        simp only [noRepl, Bool.and_eq_true] at h1
        exact ih.2.1 h1.1 (by rw [noReplL_append]; simp [h1.2, h2])
      · intro h1 h2
        simp only [canon, Bool.and_eq_true] at h1
        exact ih.2.2 h1.1.2 (by rw [canonL_append]; simp [h1.2, h2])
    · rw [unrollApp_eq_self cur acc (Bool.of_not_eq_true happ)]
      exact ⟨Bool.of_not_eq_true happ, fun h1 h2 => ⟨h1, h2⟩, fun h1 h2 => ⟨h1, h2⟩⟩

/-- The `unroll_record` collecting loop: the final tail is not an
`ExtendRow`, and full substitutedness and canonicity carry over. -/
theorem unrollRow_facts (s : SubsState) : ∀ (n : Nat) (cur : Typ)
    (accT accF : List (Symbol × Typ)), sizeOf cur ≤ n →
    isER (unrollRow cur accT accF).1 = false
      ∧ (noRepl s cur = true → noReplP s accT = true → noReplP s accF = true →
          noRepl s (unrollRow cur accT accF).1 = true
            ∧ noReplP s (unrollRow cur accT accF).2.1 = true
            ∧ noReplP s (unrollRow cur accT accF).2.2 = true)
      ∧ (canon cur = true → canonP accT = true → canonP accF = true →
          canon (unrollRow cur accT accF).1 = true
            ∧ canonP (unrollRow cur accT accF).2.1 = true
            ∧ canonP (unrollRow cur accT accF).2.2 = true) := by
  intro n
  induction n with
  | zero =>
    intro cur accT accF hsz
    exfalso
    cases cur <;> simp at hsz
  | succ n ihn =>
    intro cur accT accF hsz
    by_cases her : isER cur = true
    · rcases cur with _ | _ | _ | _ | _ | _ | _ | _ | _ | _ | ⟨ts, fs, rest⟩ | _ | _ | _ <;>
        try simp [isER] at her
      have hred : unrollRow (.extendRow ts fs rest) accT accF
          = unrollRow rest (accT ++ ts) (accF ++ fs) := rfl
      have hszr : sizeOf rest ≤ n := by
        have hs := @Typ.extendRow.sizeOf_spec ts fs rest
        omega
      have ih := ihn rest (accT ++ ts) (accF ++ fs) hszr
      rw [hred]
      refine ⟨ih.1, ?_, ?_⟩
      · intro h1 h2 h3
        simp only [noRepl, Bool.and_eq_true] at h1
        exact ih.2.1 h1.2 (by rw [noReplP_append]; simp [h1.1.1, h2])
          (by rw [noReplP_append]; simp [h1.1.2, h3])
      · intro h1 h2 h3
        simp only [canon, Bool.and_eq_true] at h1
        exact ih.2.2 h1.2 (by rw [canonP_append]; simp [h1.1.1.2, h2])
          (by rw [canonP_append]; simp [h1.1.2, h3])
    · rw [unrollRow_eq_self cur accT accF (Bool.of_not_eq_true her)]
      exact ⟨Bool.of_not_eq_true her, fun h1 h2 h3 => ⟨h1, h2, h3⟩,
        fun h1 h2 h3 => ⟨h1, h2, h3⟩⟩

/-- `unroll_typ` of an `App` whose head is not an `App` does nothing. -/
theorem unrollTyp_app_none (l : Typ) (rest : List Typ) (h : isApp l = false) :
    unrollTyp (.app l rest) = none := by
  cases l <;> first | rfl | simp [isApp] at h

/-- `unroll_typ` of an `ExtendRow` whose tail is not an `ExtendRow` does
nothing. -/
theorem unrollTyp_er_none (ts fs : List (Symbol × Typ)) (rest : Typ) (h : isER rest = false) :
    unrollTyp (.extendRow ts fs rest) = none := by
  cases rest <;> first | rfl | simp [isER] at h

/-- `unroll_typ` preserves full substitutedness. -/
theorem unrollTyp_noRepl (s : SubsState) (t u : Typ) (hn : noRepl s t = true)
    (h : unrollTyp t = some u) : noRepl s u = true := by
  cases t with
  | app l rest =>
    by_cases happ : isApp l = true
    · rcases l with _ | _ | _ | _ | _ | _ | _ | ⟨l2, r2⟩ | _ | _ | _ | _ | _ | _ <;>
        try simp [isApp] at happ
      simp only [unrollTyp] at h
      split at h
      · cases h
      · injection h with h1
        subst h1
        simp only [noRepl, Bool.and_eq_true] at hn
        have hfacts := unrollApp_facts s (sizeOf (Typ.app l2 r2)) (.app l2 r2) rest le_rfl
        obtain ⟨hr1, hr2⟩ := hfacts.2.1 (by simp [noRepl, hn.1]) hn.2
        simp [noRepl, hr1, hr2]
    · rw [unrollTyp_app_none l rest (Bool.of_not_eq_true happ)] at h
      cases h
  | extendRow ts fs rest =>
    by_cases her : isER rest = true
    · rcases rest with _ | _ | _ | _ | _ | _ | _ | _ | _ | _ | ⟨ts2, fs2, r2⟩ | _ | _ | _ <;>
        try simp [isER] at her
      simp only [unrollTyp, unrollRecordU] at h
      split at h
      · cases h
      · injection h with h1
        subst h1
        simp only [noRepl, Bool.and_eq_true] at hn
        have hfacts := unrollRow_facts s (sizeOf (Typ.extendRow ts2 fs2 r2))
          (.extendRow ts2 fs2 r2) ts fs le_rfl
        obtain ⟨hr1, hr2, hr3⟩ := hfacts.2.1 (by simp [noRepl, hn.2]) hn.1.1 hn.1.2
        simp [noRepl, hr1, hr2, hr3]
    · rw [unrollTyp_er_none ts fs rest (Bool.of_not_eq_true her)] at h
      cases h
  | hole => cases h
  | opq => cases h
  | builtin b => cases h
  | tvar v => cases h
  | skolem nm i => cases h
  | generic g => cases h
  | forallT ps b => cases h
  | record rw => cases h
  | variant rw => cases h
  | emptyRow => cases h
  | aliasT nm ps b => cases h
  | ident i => cases h

/-- One `unroll_typ` step preserves full substitutedness. -/
theorem unrollStep_noRepl (s : SubsState) (t : Typ) (h : noRepl s t = true) :
    noRepl s (unrollStep t) = true := by
  unfold unrollStep
  cases hu : unrollTyp t with
  | none => simpa using h
  | some u => simpa using unrollTyp_noRepl s t u h hu

/-- One `unroll_typ` step on an `App` with canonical head and arguments yields
a canonical node. -/
theorem unrollStep_app_canon (l : Typ) (args : List Typ)
    (ch : canon l = true) (cargs : canonL args = true) :
    canon (unrollStep (.app l args)) = true := by
  by_cases happ : isApp l = true
  · rcases l with _ | _ | _ | _ | _ | _ | _ | ⟨l2, r2⟩ | _ | _ | _ | _ | _ | _ <;>
      try simp [isApp] at happ
    have hfacts := unrollApp_facts sEmpty (sizeOf (Typ.app l2 r2)) (.app l2 r2) args le_rfl
    obtain ⟨hc1, hc2⟩ := hfacts.2.2 ch cargs
    by_cases hemp : (unrollApp (.app l2 r2) args).2.isEmpty = true
    · have hnone : unrollTyp (.app (.app l2 r2) args) = none := by
        simp [unrollTyp, hemp]
      simp only [unrollStep, hnone, Option.getD_none]
      simp only [canon, Bool.and_eq_true] at ch ⊢
      exact ⟨⟨by simp [hnone], ch⟩, cargs⟩
    · have hsome : unrollTyp (.app (.app l2 r2) args)
          = some (.app (unrollApp (.app l2 r2) args).1 (unrollApp (.app l2 r2) args).2) := by
        simp [unrollTyp, hemp]
      simp only [unrollStep, hsome, Option.getD_some]
      have hn2 : unrollTyp (.app (unrollApp (.app l2 r2) args).1
          (unrollApp (.app l2 r2) args).2) = none :=
        unrollTyp_app_none _ _ hfacts.1
      simp only [canon, Bool.and_eq_true]
      exact ⟨⟨by simp [hn2], hc1⟩, hc2⟩
  · have hnone : unrollTyp (.app l args) = none :=
      unrollTyp_app_none l args (Bool.of_not_eq_true happ)
    simp only [unrollStep, hnone, Option.getD_none]
    simp only [canon, Bool.and_eq_true]
    exact ⟨⟨by simp [hnone], ch⟩, cargs⟩

/-- One `unroll_typ` step on an `ExtendRow` with canonical fields and tail
yields a canonical node. -/
theorem unrollStep_er_canon (ts fs : List (Symbol × Typ)) (rest : Typ)
    (cts : canonP ts = true) (cfs : canonP fs = true) (cr : canon rest = true) :
    canon (unrollStep (.extendRow ts fs rest)) = true := by
  by_cases her : isER rest = true
  · rcases rest with _ | _ | _ | _ | _ | _ | _ | _ | _ | _ | ⟨ts2, fs2, r2⟩ | _ | _ | _ <;>
      try simp [isER] at her
    have hfacts := unrollRow_facts sEmpty (sizeOf (Typ.extendRow ts2 fs2 r2))
      (.extendRow ts2 fs2 r2) ts fs le_rfl
    obtain ⟨hc1, hc2, hc3⟩ := hfacts.2.2 cr cts cfs
    by_cases hemp : ((unrollRow (.extendRow ts2 fs2 r2) ts fs).2.1.isEmpty
        && (unrollRow (.extendRow ts2 fs2 r2) ts fs).2.2.isEmpty) = true
    · have hnone : unrollTyp (.extendRow ts fs (.extendRow ts2 fs2 r2)) = none := by
        simp only [unrollTyp, unrollRecordU]
        rw [if_pos hemp]
      simp only [unrollStep, hnone, Option.getD_none]
      simp only [canon, Bool.and_eq_true] at cr ⊢
      exact ⟨⟨⟨by simp [hnone], cts⟩, cfs⟩, cr⟩
    · have hsome : unrollTyp (.extendRow ts fs (.extendRow ts2 fs2 r2))
          = some (.extendRow (unrollRow (.extendRow ts2 fs2 r2) ts fs).2.1
              (unrollRow (.extendRow ts2 fs2 r2) ts fs).2.2
              (unrollRow (.extendRow ts2 fs2 r2) ts fs).1) := by
        simp only [unrollTyp, unrollRecordU]
        rw [if_neg hemp]
      simp only [unrollStep, hsome, Option.getD_some]
      have hn2 : unrollTyp (.extendRow (unrollRow (.extendRow ts2 fs2 r2) ts fs).2.1
          (unrollRow (.extendRow ts2 fs2 r2) ts fs).2.2
          (unrollRow (.extendRow ts2 fs2 r2) ts fs).1) = none :=
        unrollTyp_er_none _ _ _ hfacts.1
      simp only [canon, Bool.and_eq_true]
      exact ⟨⟨⟨by simp [hn2], hc2⟩, hc3⟩, hc1⟩
  · have hnone : unrollTyp (.extendRow ts fs rest) = none :=
      unrollTyp_er_none ts fs rest (Bool.of_not_eq_true her)
    simp only [unrollStep, hnone, Option.getD_none]
    simp only [canon, Bool.and_eq_true]
    exact ⟨⟨⟨by simp [hnone], cts⟩, cfs⟩, cr⟩

mutual
/-- The bottom-up unrolling pass preserves full substitutedness. -/
theorem unrollAll_noRepl (s : SubsState) :
    ∀ t : Typ, noRepl s t = true → noRepl s (unrollAll t) = true
  | .hole, h => by simpa [unrollAll, unrollStep, unrollTyp, unrollRecordU] using h
  | .opq, h => by simpa [unrollAll, unrollStep, unrollTyp, unrollRecordU] using h
  | .builtin b, h => by simpa [unrollAll, unrollStep, unrollTyp, unrollRecordU] using h
  | .tvar v, h => by simpa [unrollAll, unrollStep, unrollTyp, unrollRecordU] using h
  | .skolem nm i, h => by simpa [unrollAll, unrollStep, unrollTyp, unrollRecordU] using h
  | .generic g, h => by simpa [unrollAll, unrollStep, unrollTyp, unrollRecordU] using h
  | .emptyRow, h => by simpa [unrollAll, unrollStep, unrollTyp, unrollRecordU] using h
  | .aliasT nm ps b, h => by simpa [unrollAll, unrollStep, unrollTyp, unrollRecordU] using h
  | .ident i, h => by simpa [unrollAll, unrollStep, unrollTyp, unrollRecordU] using h
  | .forallT ps b, h => by
    have ihb := unrollAll_noRepl s b (by simpa [noRepl] using h)
    simp only [unrollAll]
    exact unrollStep_noRepl s _ (by simpa [noRepl] using ihb)
  | .app hd args, h => by
    have h2 : noRepl s hd = true ∧ noReplL s args = true := by
      simpa [noRepl, Bool.and_eq_true] using h
    have ih1 := unrollAll_noRepl s hd h2.1
    have ih2 := unrollAllL_noRepl s args h2.2
    simp only [unrollAll]
    exact unrollStep_noRepl s _ (by simp [noRepl, ih1, ih2])
  | .record r, h => by
    have ihr := unrollAll_noRepl s r (by simpa [noRepl] using h)
    simp only [unrollAll]
    exact unrollStep_noRepl s _ (by simpa [noRepl] using ihr)
  | .variant r, h => by
    have ihr := unrollAll_noRepl s r (by simpa [noRepl] using h)
    simp only [unrollAll]
    exact unrollStep_noRepl s _ (by simpa [noRepl] using ihr)
  | .extendRow ts fs rest, h => by
    have h2 : (noReplP s ts = true ∧ noReplP s fs = true) ∧ noRepl s rest = true := by
      simpa [noRepl, Bool.and_eq_true] using h
    have ih1 := unrollAllP_noRepl s ts h2.1.1
    have ih2 := unrollAllP_noRepl s fs h2.1.2
    have ih3 := unrollAll_noRepl s rest h2.2
    simp only [unrollAll]
    exact unrollStep_noRepl s _ (by simp [noRepl, ih1, ih2, ih3])

/-- List version of `unrollAll_noRepl`. -/
theorem unrollAllL_noRepl (s : SubsState) :
    ∀ ts : List Typ, noReplL s ts = true → noReplL s (unrollAllL ts) = true
  | [], _ => by simp [unrollAllL, noReplL]
  | t :: ts, h => by
    have h2 : noRepl s t = true ∧ noReplL s ts = true := by
      simpa [noReplL, Bool.and_eq_true] using h
    simp [unrollAllL, noReplL, unrollAll_noRepl s t h2.1, unrollAllL_noRepl s ts h2.2]

/-- Field-list version of `unrollAll_noRepl`. -/
theorem unrollAllP_noRepl (s : SubsState) :
    ∀ ps : List (Symbol × Typ), noReplP s ps = true → noReplP s (unrollAllP ps) = true
  | [], _ => by simp [unrollAllP, noReplP]
  | (n, t) :: ts, h => by
    have h2 : noRepl s t = true ∧ noReplP s ts = true := by
      simpa [noReplP, Bool.and_eq_true] using h
    simp [unrollAllP, noReplP, unrollAll_noRepl s t h2.1, unrollAllP_noRepl s ts h2.2]
end

mutual
/-- The bottom-up unrolling pass yields a canonical type: `unroll_typ` has
nothing left to do at any node of the result. -/
theorem unrollAll_canon : ∀ t : Typ, canon (unrollAll t) = true
  | .hole => by simp [unrollAll, unrollStep, unrollTyp, unrollRecordU, canon]
  | .opq => by simp [unrollAll, unrollStep, unrollTyp, unrollRecordU, canon]
  | .builtin b => by simp [unrollAll, unrollStep, unrollTyp, unrollRecordU, canon]
  | .tvar v => by simp [unrollAll, unrollStep, unrollTyp, unrollRecordU, canon]
  | .skolem nm i => by simp [unrollAll, unrollStep, unrollTyp, unrollRecordU, canon]
  | .generic g => by simp [unrollAll, unrollStep, unrollTyp, unrollRecordU, canon]
  | .emptyRow => by simp [unrollAll, unrollStep, unrollTyp, unrollRecordU, canon]
  | .aliasT nm ps b => by simp [unrollAll, unrollStep, unrollTyp, unrollRecordU, canon]
  | .ident i => by simp [unrollAll, unrollStep, unrollTyp, unrollRecordU, canon]
  | .forallT ps b => by
    have ihb := unrollAll_canon b
    simp only [unrollAll]
    have hnone : unrollTyp (.forallT ps (unrollAll b)) = none := rfl
    simp only [unrollStep, hnone, Option.getD_none]
    simp only [canon, Bool.and_eq_true]
    exact ⟨by simp [hnone], ihb⟩
  | .app hd args => by
    simp only [unrollAll]
    exact unrollStep_app_canon (unrollAll hd) (unrollAllL args)
      (unrollAll_canon hd) (unrollAllL_canon args)
  | .record r => by
    have ihr := unrollAll_canon r
    simp only [unrollAll]
    have hnone : unrollTyp (.record (unrollAll r)) = none := rfl
    simp only [unrollStep, hnone, Option.getD_none]
    simp only [canon, Bool.and_eq_true]
    exact ⟨by simp [hnone], ihr⟩
  | .variant r => by
    have ihr := unrollAll_canon r
    simp only [unrollAll]
    have hnone : unrollTyp (.variant (unrollAll r)) = none := rfl
    simp only [unrollStep, hnone, Option.getD_none]
    simp only [canon, Bool.and_eq_true]
    exact ⟨by simp [hnone], ihr⟩
  | .extendRow ts fs rest => by
    simp only [unrollAll]
    exact unrollStep_er_canon (unrollAllP ts) (unrollAllP fs) (unrollAll rest)
      (unrollAllP_canon ts) (unrollAllP_canon fs) (unrollAll_canon rest)

/-- List version of `unrollAll_canon`. -/
theorem unrollAllL_canon : ∀ ts : List Typ, canonL (unrollAllL ts) = true
  | [] => by simp [unrollAllL, canonL]
  | t :: ts => by simp [unrollAllL, canonL, unrollAll_canon t, unrollAllL_canon ts]

/-- Field-list version of `unrollAll_canon`. -/
theorem unrollAllP_canon : ∀ ps : List (Symbol × Typ), canonP (unrollAllP ps) = true
  | [] => by simp [unrollAllP, canonP]
  | (n, t) :: ts => by simp [unrollAllP, canonP, unrollAll_canon t, unrollAllP_canon ts]
end

mutual
/-- The bottom-up unrolling pass fixes every canonical type. -/
theorem unrollAll_canon_id : ∀ t : Typ, canon t = true → unrollAll t = t
  | .hole, _ => by simp [unrollAll, unrollStep, unrollTyp, unrollRecordU]
  | .opq, _ => by simp [unrollAll, unrollStep, unrollTyp, unrollRecordU]
  | .builtin b, _ => by simp [unrollAll, unrollStep, unrollTyp, unrollRecordU]
  | .tvar v, _ => by simp [unrollAll, unrollStep, unrollTyp, unrollRecordU]
  | .skolem nm i, _ => by simp [unrollAll, unrollStep, unrollTyp, unrollRecordU]
  | .generic g, _ => by simp [unrollAll, unrollStep, unrollTyp, unrollRecordU]
  | .emptyRow, _ => by simp [unrollAll, unrollStep, unrollTyp, unrollRecordU]
  | .aliasT nm ps b, _ => by simp [unrollAll, unrollStep, unrollTyp, unrollRecordU]
  | .ident i, _ => by simp [unrollAll, unrollStep, unrollTyp, unrollRecordU]
  | .forallT ps b, h => by
    have hb : canon b = true := by
      have h2 := h
      simp only [canon, Bool.and_eq_true] at h2
      exact h2.2
    simp only [unrollAll, unrollAll_canon_id b hb]
    have hnone : unrollTyp (.forallT ps b) = none := rfl
    simp [unrollStep, hnone]
  | .app hd args, h => by
    simp only [canon, Bool.and_eq_true] at h
    have hnone : unrollTyp (.app hd args) = none := Option.isNone_iff_eq_none.mp h.1.1
    simp only [unrollAll, unrollAll_canon_id hd h.1.2, unrollAllL_canon_id args h.2]
    simp [unrollStep, hnone]
  | .record r, h => by
    have hr : canon r = true := by
      have h2 := h
      simp only [canon, Bool.and_eq_true] at h2
      exact h2.2
    simp only [unrollAll, unrollAll_canon_id r hr]
    have hnone : unrollTyp (.record r) = none := rfl
    simp [unrollStep, hnone]
  | .variant r, h => by
    have hr : canon r = true := by
      have h2 := h
      simp only [canon, Bool.and_eq_true] at h2
      exact h2.2
    simp only [unrollAll, unrollAll_canon_id r hr]
    have hnone : unrollTyp (.variant r) = none := rfl
    simp [unrollStep, hnone]
  | .extendRow ts fs rest, h => by
    simp only [canon, Bool.and_eq_true] at h
    have hnone : unrollTyp (.extendRow ts fs rest) = none :=
      Option.isNone_iff_eq_none.mp h.1.1.1
    simp only [unrollAll, unrollAllP_canon_id ts h.1.1.2, unrollAllP_canon_id fs h.1.2,
      unrollAll_canon_id rest h.2]
    simp [unrollStep, hnone]

/-- List version of `unrollAll_canon_id`. -/
theorem unrollAllL_canon_id : ∀ ts : List Typ, canonL ts = true → unrollAllL ts = ts
  | [], _ => rfl
  | t :: ts, h => by
    have h2 : canon t = true ∧ canonL ts = true := by
      simpa [canonL, Bool.and_eq_true] using h
    simp [unrollAllL, unrollAll_canon_id t h2.1, unrollAllL_canon_id ts h2.2]

/-- Field-list version of `unrollAll_canon_id`. -/
theorem unrollAllP_canon_id : ∀ ps : List (Symbol × Typ), canonP ps = true → unrollAllP ps = ps
  | [], _ => rfl
  | (n, t) :: ts, h => by
    have h2 : canon t = true ∧ canonP ts = true := by
      simpa [canonP, Bool.and_eq_true] using h
    simp [unrollAllP, unrollAll_canon_id t h2.1, unrollAllP_canon_id ts h2.2]
end

/-! ## Claim C6 -/

/-- Claim C6: `Substitution::set_type` — full variable replacement followed by
the bottom-up `unroll_typ` folding of nested `App`/`ExtendRow` spines — is
idempotent: whenever `set_type` succeeds on `t` with result `r`, running
`set_type` on `r` (with any fuel large enough to walk `r`; the fuel is an
artifact of the model, the source walk is unbounded recursion) returns `r`
unchanged.  The result `r` contains no substituted variable and is in
canonical single-layer form, so the second replacement pass is the identity
and the second unrolling pass has nothing to do. -/
theorem c6_theorem (s : SubsState) (fuel : Nat) (t r : Typ)
    (h : setTypeM s fuel t = some r) (g : Nat) (hg : tdepth r < g) :
    setTypeM s g r = some r := by
  unfold setTypeM at h ⊢
  rw [Option.map_eq_some'] at h
  obtain ⟨u, hu, hru⟩ := h
  subst hru
  have hq := (substF_props s fuel).1 t u hu
  have hnr : noRepl s (unrollAll u) = true := unrollAll_noRepl s u hq.1
  have hid : substF s g (unrollAll u) = some (unrollAll u) :=
    (substF_id s g).1 (unrollAll u) hnr hg
  rw [hid, Option.map_some']
  rw [unrollAll_canon_id (unrollAll u) (unrollAll_canon u)]

/-- Witness for C6: in the state whose type map sends variable `0` to
`App (builtin 9) [hole]`, `set_type` of `Variable 0` yields that type, and
`set_type` of the result returns it unchanged. -/
theorem c6_witness :
    setTypeM sSetType 5 (.tvar 0) = some (.app (.builtin 9) [.hole])
      ∧ setTypeM sSetType 3 (.app (.builtin 9) [.hole]) = some (.app (.builtin 9) [.hole]) :=
  ⟨rfl, c6_theorem sSetType 5 (.tvar 0) (.app (.builtin 9) [.hole]) rfl 3 (by decide)⟩

/-- `real` only depends on the links and on the types of classes other than
`v`, provided the `a1`-resolution does not yield the variable `v` itself. -/
theorem real_stable (v : Nat) (a1 a2 : SubsState) (t0 : Typ)
    (hvc : a2.varCount = a1.varCount) (hlink : a2.link = a1.link)
    (htypes : ∀ i, i ≠ v → a2.types i = a1.types i) (hvnone : a1.types v = none)
    (hne : (real a1 t0).getVar ≠ some v) :
    real a2 t0 = real a1 t0 := by
  cases hw : t0.getVar with
  | none => simp [real, hw]
  | some w =>
    have hft : findTypeForVar a2 w = findTypeForVar a1 w := by
      simp only [findTypeForVar, hvc, hlink]
      by_cases hcnt : a1.varCount ≤ w
      · rw [if_pos hcnt, if_pos hcnt]
      · rw [if_neg hcnt, if_neg hcnt]
        by_cases hiv : a1.link w = v
        · exfalso
          apply hne
          have h1 : findTypeForVar a1 w = if w = v then none else some (.tvar v) := by
            simp only [findTypeForVar]
            rw [if_neg hcnt, hiv, hvnone]
          by_cases hwv : w = v
          · have h2 : real a1 t0 = t0 := by
              simp only [real, hw]
              rw [h1, if_pos hwv]
              rfl
            rw [h2, hw, hwv]
          · have h2 : real a1 t0 = .tvar v := by
              simp only [real, hw]
              rw [h1, if_neg hwv]
              rfl
            rw [h2]
            rfl
        · rw [htypes (a1.link w) hiv]
    simp only [real, hw, hft]

/-- If the occurs walk comes back clean (`false`), it stays clean in any state
with the same links whose type map differs only at the class `v` that the walk
avoided (in particular in the state `union` produces by inserting a concrete
type for `v`).  Levels play no role in the walked path. -/
theorem occursGo_stable (v : Nat) :
    ∀ (fuel : Nat) (ws : List Typ) (a1 a2 : SubsState),
      a2.varCount = a1.varCount → a2.link = a1.link →
      (∀ i, i ≠ v → a2.types i = a1.types i) → a1.types v = none →
      ∀ s1', occursGo v fuel a1 ws = some (false, s1') →
      (occursGo v fuel a2 ws).map Prod.fst = some false := by
  intro fuel
  induction fuel with
  | zero =>
    intro ws a1 a2 _ _ _ _ s1' h
    cases h
  | succ n ih =>
    intro ws a1 a2 hvc hlink htypes hvnone s1' h
    cases ws with
    | nil => simp [occursGo]
    | cons t0 rest =>
      simp only [occursGo] at h
      cases hg : (real a1 t0).getVar with
      | some w =>
        simp only [hg] at h
        by_cases hvw : v = w
        · rw [if_pos hvw] at h
          simp at h
        · rw [if_neg hvw] at h
          have hne : (real a1 t0).getVar ≠ some v := by
            rw [hg]
            intro hc
            injection hc with hc2
            exact hvw hc2.symm
          have hreal := real_stable v a1 a2 t0 hvc hlink htypes hvnone hne
          simp only [occursGo, hreal, hg, if_neg hvw]
          exact ih ((real a1 t0).children ++ rest) (updateLevel a1 v w) (updateLevel a2 v w)
            (by rw [updateLevel_varCount, updateLevel_varCount, hvc])
            (by rw [updateLevel_link, updateLevel_link, hlink])
            (fun i hi => by rw [updateLevel_types, updateLevel_types]; exact htypes i hi)
            (by rw [updateLevel_types]; exact hvnone)
            s1' h
      | none =>
        simp only [hg] at h
        have hne : (real a1 t0).getVar ≠ some v := by
          rw [hg]
          exact fun hc => Option.noConfusion hc
        have hreal := real_stable v a1 a2 t0 hvc hlink htypes hvnone hne
        simp only [occursGo, hreal, hg]
        exact ih ((real a1 t0).children ++ rest) a1 a2 hvc hlink htypes hvnone s1' h

/-! ## Claim C2 -/

/-- Claim C2 counterexample: in the two-variable state, `union(0, Variable 1)`
returns `Ok` through the variable-variable link path, yet the occurs walk on
`Variable 1` in the resulting substitution reaches variable `0`: `real` sends
`Variable 1` to the class representative `Variable 0`. -/
theorem c2_counterexample :
    isOkNone (unionF 10 eqvAll instId sTwo 0 (.tvar 1)) = true
      ∧ (occursChk 10 (okStateD (unionF 10 eqvAll instId sTwo 0 (.tvar 1))) 0
          (.tvar 1)).map Prod.fst = some true :=
  ⟨rfl, rfl⟩

/-- Claim C2, amended: (1) when `v` occurs in `t` under the current
substitution and `t` is not the variable `v` itself, `union(v, t)` fails with
an `Occurs` error and the type map is unchanged (only levels were lowered by
the walk); (2) when `union(v, t)` returns `Ok` with a concrete (non-variable)
resolved type — the insert path — re-walking `t` in the resulting substitution
still never reaches `v`.  (In the variable-variable link path the walk *can*
reach `v`, which is the counterexample: there the claim's first half fails.) -/
theorem c2_amended (fuel : Nat) (eqv : Typ → Typ → Bool) (inst : Typ → Typ)
    (s : SubsState) (v : Nat) (t : Typ) (hsv : sameVar t v = false) :
    (∀ s1, occursChk fuel s v t = some (true, s1) →
        unionF fuel eqv inst s v t = .fail (.occursE (.tvar v) t) s1
          ∧ s1.types = s.types)
      ∧ (∀ r s', s.types v = none → unionF fuel eqv inst s v t = .ok r s' →
          (r.getD t).getVar = none →
          (occursChk fuel s' v t).map Prod.fst = some false) := by
  constructor
  · intro s1 hocc
    constructor
    · simp [unionF, hsv, hocc]
    · exact (occursGo_pres v fuel s [t] true s1 hocc).2.2.2.2
  · intro r s' htv0 hok hget
    rcases unionF_ok_cases fuel eqv inst s v t r s' hok with ⟨hs, _, _⟩ | ⟨s1, _, hocc, htail⟩
    · rw [hs] at hsv
      cases hsv
    · have hpres := occursGo_pres v fuel s [t] false s1 hocc
      rcases unionTail_ok_cases eqv inst s1 v t r s' htail with ⟨_, hs', _⟩ | ⟨ro, _, _, hfin⟩
      · subst hs'
        exact occursGo_stable v fuel [t] s s' hpres.1 hpres.2.1
          (fun i _ => by rw [hpres.2.2.2.2]) htv0 s' hocc
      · simp only [unionFinish] at hfin
        split at hfin
        · next otherId hsome =>
          injection hfin with h1 h2
          subst h1
          rw [hget] at hsome
          cases hsome
        · split at hfin
          · cases hfin
          · cases hfin
          · next s2 hins =>
            injection hfin with h1 h2
            subst h2
            have hins' := insertT_ok s1 v (ro.getD t) s2 hins
            refine occursGo_stable v fuel [t] s s2 ?_ ?_ ?_ htv0 s1 hocc
            · rw [hins'.2.2.1, hpres.1]
            · rw [hins'.2.1, hpres.2.1]
            · intro i hi
              have hv2 : s2.types i = if i = v then some (ro.getD t) else s1.types i := by
                rw [hins'.1]
              rw [hv2, if_neg hi, hpres.2.2.2.2]

/-- Witness for C2: in the two-variable state, `union(0, App (builtin 9)
[Variable 0])` fails with `Occurs` leaving the type map unchanged, and after
the successful insert-path `union(0, builtin 5)` the occurs walk on
`builtin 5` still reports no occurrence of `0`. -/
theorem c2_witness :
    (unionF 10 eqvAll instId sTwo 0 (.app (.builtin 9) [.tvar 0])
        = .fail (.occursE (.tvar 0) (.app (.builtin 9) [.tvar 0])) sTwo
      ∧ sTwo.types = sTwo.types)
      ∧ (occursChk 10 (okStateD (unionF 10 eqvAll instId sTwo 0 (.builtin 5))) 0
          (.builtin 5)).map Prod.fst = some false :=
  ⟨(c2_amended 10 eqvAll instId sTwo 0 (.app (.builtin 9) [.tvar 0]) rfl).1 sTwo rfl,
   (c2_amended 10 eqvAll instId sTwo 0 (.builtin 5) rfl).2 none
     (okStateD (unionF 10 eqvAll instId sTwo 0 (.builtin 5))) rfl rfl rfl⟩

theorem varsBL_append (n : Nat) (xs ys : List Typ) :
    varsBL n (xs ++ ys) = (varsBL n xs && varsBL n ys) := by
  induction xs with
  | nil => simp [varsBL]
  | cons x xs ih => simp [varsBL, ih, Bool.and_assoc]

theorem varsBL_map_snd (n : Nat) (ps : List (Symbol × Typ)) (h : varsBP n ps = true) :
    varsBL n (ps.map Prod.snd) = true := by
  induction ps with
  | nil => simp [varsBL]
  | cons p ps ih =>
    obtain ⟨a, b⟩ := p
    simp only [varsBP, Bool.and_eq_true] at h
    simp [List.map, varsBL, h.1, ih h.2]

/-- The sub-terms visited by the walk stay among the created variables. -/
theorem varsB_children (n : Nat) (t : Typ) (h : varsB n t = true) :
    varsBL n t.children = true := by
  cases t with
  | forallT ps b => simpa [Typ.children, varsBL, varsB] using h
  | app hd args =>
    simp only [varsB, Bool.and_eq_true] at h
    simp [Typ.children, varsBL, h.1, h.2]
  | record r => simpa [Typ.children, varsBL, varsB] using h
  | variant r => simpa [Typ.children, varsBL, varsB] using h
  | extendRow ts fs rest =>
    simp only [varsB, Bool.and_eq_true] at h
    simp [Typ.children, varsBL_append, varsBL, varsBL_map_snd n ts h.1.1,
      varsBL_map_snd n fs h.1.2, h.2]
  | hole => simp [Typ.children, varsBL]
  | opq => simp [Typ.children, varsBL]
  | builtin b => simp [Typ.children, varsBL]
  | tvar w => simp [Typ.children, varsBL]
  | skolem nm i => simp [Typ.children, varsBL]
  | generic g => simp [Typ.children, varsBL]
  | emptyRow => simp [Typ.children, varsBL]
  | aliasT nm ps b => simp [Typ.children, varsBL]
  | ident i => simp [Typ.children, varsBL]

/-- A created root variable with no stored type resolves to nothing. -/
theorem ftv_walkVar (s : SubsState) (w : Nat) (h1 : s.link w = w) (h2 : s.types w = none)
    (h3 : w < s.varCount) : findTypeForVar s w = none := by
  simp only [findTypeForVar, if_neg (Nat.not_le.mpr h3)]
  rw [h1, h2]
  simp

/-- `get_level` written out with `resolveVar`. -/
theorem getLevel_eq (s : SubsState) (x : Nat) :
    getLevel s x = (min (s.level (s.link (resolveVar s x))) (resolveVar s x),
      { s with level := fun j =>
          if j = s.link (resolveVar s x)
          then min (s.level (s.link (resolveVar s x))) (resolveVar s x)
          else s.level j }) := rfl

/-- The clamping write of `get_level` never raises a level. -/
theorem getLevel_level_le (s : SubsState) (x : Nat) :
    ∀ j, (getLevel s x).2.level j ≤ s.level j := by
  intro j
  rw [getLevel_eq]
  dsimp only
  split
  · next hj => rw [hj]; exact Nat.min_le_left _ _
  · exact le_rfl

/-- `get_level` on a created, untyped root variable. -/
theorem getLevel_walkVar (a : SubsState) (w : Nat)
    (h1 : a.link w = w) (h2 : a.types w = none) (h3 : w < a.varCount) :
    getLevel a w = (min (a.level w) w,
      { a with level := fun j => if j = w then min (a.level w) w else a.level j }) := by
  have hres : resolveVar a w = w := by simp [resolveVar, ftv_walkVar a w h1 h2 h3]
  rw [getLevel_eq, hres, h1]

/-- `levelVal` of a created, untyped root variable. -/
theorem levelVal_walkVar (a : SubsState) (w : Nat)
    (h1 : a.link w = w) (h2 : a.types w = none) (h3 : w < a.varCount) :
    levelVal a w = min (a.level w) w := by
  simp only [levelVal, getLevel_walkVar a w h1 h2 h3]

/-- `real`'s head on a node visited by the walk: bounded variables stay
bounded, and a resolved variable head is a created root variable with no
stored type. -/
theorem real_shape (s : SubsState) (t0 : Typ)
    (hqf : QuickFind s) (htc : TypesConcrete s) (hlr : LinkRange s) (htb : TypesBelow s)
    (hv : varsB s.varCount t0 = true) :
    varsB s.varCount (real s t0) = true
      ∧ ∀ w, (real s t0).getVar = some w →
          s.link w = w ∧ s.types w = none ∧ w < s.varCount := by
  cases t0 with
  | tvar x =>
    have hx : x < s.varCount := by simpa [varsB] using hv
    have hnle : ¬ s.varCount ≤ x := Nat.not_le.mpr hx
    simp only [real, Typ.getVar]
    cases hf : findTypeForVar s x with
    | none =>
      simp only [findTypeForVar, if_neg hnle] at hf
      split at hf
      · cases hf
      · next hty =>
        split at hf
        · next hxeq =>
          simp only [Option.getD_none]
          refine ⟨by simpa [varsB] using hx, fun w hww => ?_⟩
          simp only [Typ.getVar, Option.some.injEq] at hww
          subst hww
          exact ⟨hxeq.symm, by rwa [← hxeq] at hty, hx⟩
        · cases hf
    | some u =>
      simp only [findTypeForVar, if_neg hnle] at hf
      split at hf
      · next u2 hty =>
        injection hf with hf1
        subst hf1
        simp only [Option.getD_some]
        refine ⟨htb (s.link x) u2 hty, fun w hww => ?_⟩
        have hcon := htc (s.link x) u2 hty
        cases u2 <;> simp_all [Typ.getVar]
      · next hty =>
        split at hf
        · cases hf
        · next hxne =>
          injection hf with hf1
          subst hf1
          simp only [Option.getD_some]
          have hρ : s.link x < s.varCount := hlr x hx
          refine ⟨by simpa [varsB] using hρ, fun w hww => ?_⟩
          simp only [Typ.getVar, Option.some.injEq] at hww
          subst hww
          exact ⟨hqf x, hty, hρ⟩
  | hole =>
    exact ⟨by simpa [real, Typ.getVar] using hv,
      fun w hww => by simp [real, Typ.getVar] at hww⟩
  | opq =>
    exact ⟨by simpa [real, Typ.getVar] using hv,
      fun w hww => by simp [real, Typ.getVar] at hww⟩
  | builtin b =>
    exact ⟨by simpa [real, Typ.getVar] using hv,
      fun w hww => by simp [real, Typ.getVar] at hww⟩
  | skolem nm i =>
    exact ⟨by simpa [real, Typ.getVar] using hv,
      fun w hww => by simp [real, Typ.getVar] at hww⟩
  | generic g =>
    exact ⟨by simpa [real, Typ.getVar] using hv,
      fun w hww => by simp [real, Typ.getVar] at hww⟩
  | forallT ps b =>
    exact ⟨by simpa [real, Typ.getVar] using hv,
      fun w hww => by simp [real, Typ.getVar] at hww⟩
  | app hd args =>
    exact ⟨by simpa [real, Typ.getVar] using hv,
      fun w hww => by simp [real, Typ.getVar] at hww⟩
  | record r =>
    exact ⟨by simpa [real, Typ.getVar] using hv,
      fun w hww => by simp [real, Typ.getVar] at hww⟩
  | variant r =>
    exact ⟨by simpa [real, Typ.getVar] using hv,
      fun w hww => by simp [real, Typ.getVar] at hww⟩
  | extendRow ts fs rest =>
    exact ⟨by simpa [real, Typ.getVar] using hv,
      fun w hww => by simp [real, Typ.getVar] at hww⟩
  | emptyRow =>
    exact ⟨by simpa [real, Typ.getVar] using hv,
      fun w hww => by simp [real, Typ.getVar] at hww⟩
  | aliasT nm ps b =>
    exact ⟨by simpa [real, Typ.getVar] using hv,
      fun w hww => by simp [real, Typ.getVar] at hww⟩
  | ident i =>
    exact ⟨by simpa [real, Typ.getVar] using hv,
      fun w hww => by simp [real, Typ.getVar] at hww⟩

/-- `update_level(v, w)` on a created, untyped root variable `w` (the only
shape the occurs walk passes): the written levels, as one expression. -/
theorem updateLevel_level_walk (s : SubsState) (v w : Nat)
    (h1 : s.link w = w) (h2 : s.types w = none) (h3 : w < s.varCount) :
    ∀ j, (updateLevel s v w).level j =
      if j = w
      then min (getLevel s v).1 (min ((getLevel s v).2.level w) w)
      else (getLevel s v).2.level j := by
  intro j
  simp only [updateLevel]
  rw [getLevel_walkVar ((getLevel s v).2) w (by rw [getLevel_snd_link]; exact h1)
    (by rw [getLevel_snd_types]; exact h2) (by rw [getLevel_snd_varCount]; exact h3)]
  dsimp only
  rw [getLevel_snd_link, h1]
  by_cases hj : j = w <;> simp [hj]

/-- `update_level` on a walked variable never raises any level. -/
theorem updateLevel_level_le (s : SubsState) (v w : Nat)
    (h1 : s.link w = w) (h2 : s.types w = none) (h3 : w < s.varCount) :
    ∀ j, (updateLevel s v w).level j ≤ s.level j := by
  intro j
  rw [updateLevel_level_walk s v w h1 h2 h3 j]
  split
  · next hj =>
    subst hj
    calc min (getLevel s v).1 (min ((getLevel s v).2.level j) j)
        ≤ min ((getLevel s v).2.level j) j := Nat.min_le_right _ _
      _ ≤ (getLevel s v).2.level j := Nat.min_le_left _ _
      _ ≤ s.level j := getLevel_level_le s v j
  · exact getLevel_level_le s v j

/-- After `update_level(v, w)` the encountered variable's level is at most
`v`'s level: the walk lowers `w`'s class to (at most) the minimum. -/
theorem updateLevel_levelVal_other (s : SubsState) (v w : Nat)
    (h1 : s.link w = w) (h2 : s.types w = none) (h3 : w < s.varCount) :
    levelVal (updateLevel s v w) w ≤ levelVal s v := by
  have ha1 : (updateLevel s v w).link w = w := by rw [updateLevel_link]; exact h1
  have ha2 : (updateLevel s v w).types w = none := by rw [updateLevel_types]; exact h2
  have ha3 : w < (updateLevel s v w).varCount := by rw [updateLevel_varCount]; exact h3
  rw [levelVal_walkVar _ w ha1 ha2 ha3]
  calc min ((updateLevel s v w).level w) w
      ≤ (updateLevel s v w).level w := Nat.min_le_left _ _
    _ = min (getLevel s v).1 (min ((getLevel s v).2.level w) w) := by
        rw [updateLevel_level_walk s v w h1 h2 h3 w, if_pos rfl]
    _ ≤ (getLevel s v).1 := Nat.min_le_left _ _
    _ = levelVal s v := rfl

/-- `update_level(v, w)` does not change `v`'s own (clamped) level. -/
theorem updateLevel_levelVal_self (s : SubsState) (v w : Nat)
    (hqf : QuickFind s) (htc : TypesConcrete s) (hvlt : v < s.varCount) (hwv : w ≠ v)
    (h1 : s.link w = w) (h2 : s.types w = none) (h3 : w < s.varCount) :
    levelVal (updateLevel s v w) v = levelVal s v := by
  have hL2 : levelVal (updateLevel s v w) v
      = min ((updateLevel s v w).level (s.link (resolveVar s v))) (resolveVar s v) := rfl
  rw [hL2, updateLevel_level_walk s v w h1 h2 h3]
  by_cases hj : s.link (resolveVar s v) = w
  · rw [if_pos hj]
    have hnle : ¬ s.varCount ≤ v := Nat.not_le.mpr hvlt
    cases hf0 : findTypeForVar s v with
    | none =>
      have hres : resolveVar s v = v := by simp [resolveVar, hf0]
      have hf := hf0
      simp only [findTypeForVar, if_neg hnle] at hf
      split at hf
      · cases hf
      · next hty =>
        split at hf
        · next hveq =>
          exfalso
          apply hwv
          rw [hres] at hj
          rw [← hj, ← hveq]
        · cases hf
    | some u =>
      have hf := hf0
      simp only [findTypeForVar, if_neg hnle] at hf
      split at hf
      · next u2 hty =>
        injection hf with hf1
        subst hf1
        exfalso
        have hres : resolveVar s v = v := by
          simp [resolveVar, hf0, Option.getD, htc (s.link v) u2 hty]
        rw [hres] at hj
        rw [hj] at hty
        rw [h2] at hty
        cases hty
      · next hty =>
        split at hf
        · cases hf
        · next hvne =>
          injection hf with hf1
          subst hf1
          have hres : resolveVar s v = s.link v := by
            simp [resolveVar, hf0, Typ.getVar]
          rw [hres] at hj
          rw [hqf v] at hj
          have hVw : resolveVar s v = w := by rw [hres, hj]
          have hg1 : (getLevel s v).1 = min (s.level w) w := by
            rw [getLevel_eq]
            dsimp only
            rw [hVw, h1]
          have hp12 : (getLevel s v).2.level w = min (s.level w) w := by
            rw [getLevel_eq]
            dsimp only
            rw [hVw, h1]
            simp
          have hlv : levelVal s v = min (s.level w) w := by
            rw [show levelVal s v = (getLevel s v).1 from rfl, hg1]
          rw [hlv, hVw, hp12, hg1]
          have hG : min (min (s.level w) w) w = min (s.level w) w := by
            rw [min_assoc, min_self]
          rw [hG, min_self, hG]
  · rw [if_neg hj]
    have hcl : (getLevel s v).2.level (s.link (resolveVar s v)) = (getLevel s v).1 := by
      rw [getLevel_eq]
      dsimp only
      rw [if_pos rfl]
    rw [hcl]
    have hle : (getLevel s v).1 ≤ resolveVar s v := by
      rw [getLevel_eq]
      exact Nat.min_le_right _ _
    exact Nat.min_eq_left hle

/-- `update_level` preserves the quick-find invariant (links are untouched). -/
theorem updateLevel_QuickFind (s : SubsState) (v w : Nat) (h : QuickFind s) :
    QuickFind (updateLevel s v w) := by
  intro i
  rw [updateLevel_link]
  exact h i

/-- `update_level` preserves the concrete-types invariant. -/
theorem updateLevel_TypesConcrete (s : SubsState) (v w : Nat) (h : TypesConcrete s) :
    TypesConcrete (updateLevel s v w) := by
  intro i u hh
  rw [updateLevel_types] at hh
  exact h i u hh

/-- `update_level` preserves the link-range invariant. -/
theorem updateLevel_LinkRange (s : SubsState) (v w : Nat) (h : LinkRange s) :
    LinkRange (updateLevel s v w) := by
  intro i hi
  rw [updateLevel_varCount] at hi
  rw [updateLevel_link, updateLevel_varCount]
  exact h i hi

/-- `update_level` preserves the bounded-types invariant. -/
theorem updateLevel_TypesBelow (s : SubsState) (v w : Nat) (h : TypesBelow s) :
    TypesBelow (updateLevel s v w) := by
  intro i u hh
  rw [updateLevel_types] at hh
  rw [updateLevel_varCount]
  exact h i u hh

theorem getVar_eq_tvar (t : Typ) (w : Nat) (h : t.getVar = some w) : t = .tvar w := by
  cases t <;> simp [Typ.getVar] at h
  rw [h]

/-- `real` is unchanged by level updates (full congruence on the fields it
reads). -/
theorem real_congr (a1 a2 : SubsState) (hvc : a2.varCount = a1.varCount)
    (hlink : a2.link = a1.link) (htypes : a2.types = a1.types) (t0 : Typ) :
    real a2 t0 = real a1 t0 := by
  cases hw : t0.getVar with
  | none => simp [real, hw]
  | some w => simp only [real, hw, findTypeForVar, hvc, hlink, htypes]

/-- The collecting occurs walk is stable under any state change that keeps
the links and changes the type map at most at the avoided class `v`: the same
variables are collected. -/
theorem occursVars_stable (v : Nat) :
    ∀ (fuel : Nat) (ws : List Typ) (a1 a2 : SubsState),
      a2.varCount = a1.varCount → a2.link = a1.link →
      (∀ i, i ≠ v → a2.types i = a1.types i) →
      (a2.types v = a1.types v ∨ a1.types v = none) →
      ∀ vs s1', occursVars v fuel a1 ws = some (vs, s1') →
      ∃ s2', occursVars v fuel a2 ws = some (vs, s2') := by
  intro fuel
  induction fuel with
  | zero => intro ws a1 a2 _ _ _ _ vs s1' h; cases h
  | succ n ih =>
    intro ws a1 a2 hvc hlink htypes hvt vs s1' h
    cases ws with
    | nil =>
      simp only [occursVars, Option.some.injEq, Prod.mk.injEq] at h
      exact ⟨a2, by simp [occursVars, ← h.1]⟩
    | cons t0 rest =>
      simp only [occursVars] at h
      cases hg : (real a1 t0).getVar with
      | some w =>
        simp only [hg] at h
        by_cases hvw : v = w
        · rw [if_pos hvw] at h
          cases h
        · rw [if_neg hvw] at h
          rw [Option.map_eq_some'] at h
          obtain ⟨p, hp, hpe⟩ := h
          have hreal : real a2 t0 = real a1 t0 := by
            rcases hvt with hvt | hvt
            · exact real_congr a1 a2 hvc hlink (funext fun i => by
                by_cases hi : i = v
                · rw [hi, hvt]
                · exact htypes i hi) t0
            · refine real_stable v a1 a2 t0 hvc hlink htypes hvt ?_
              rw [hg]
              intro hc
              injection hc with hc2
              exact hvw hc2.symm
          obtain ⟨s2', hs2⟩ := ih ((real a1 t0).children ++ rest)
            (updateLevel a1 v w) (updateLevel a2 v w)
            (by rw [updateLevel_varCount, updateLevel_varCount, hvc])
            (by rw [updateLevel_link, updateLevel_link, hlink])
            (fun i hi => by rw [updateLevel_types, updateLevel_types]; exact htypes i hi)
            (by rw [updateLevel_types, updateLevel_types]; exact hvt)
            p.1 p.2 hp
          refine ⟨s2', ?_⟩
          simp only [occursVars, hreal, hg, if_neg hvw, hs2, Option.map_some']
          rw [show vs = w :: p.1 from by injection hpe with h1 h2; exact h1.symm]
      | none =>
        simp only [hg] at h
        have hreal : real a2 t0 = real a1 t0 := by
          rcases hvt with hvt | hvt
          · exact real_congr a1 a2 hvc hlink (funext fun i => by
              by_cases hi : i = v
              · rw [hi, hvt]
              · exact htypes i hi) t0
          · exact real_stable v a1 a2 t0 hvc hlink htypes hvt
              (by rw [hg]; exact fun hc => Option.noConfusion hc)
        obtain ⟨s2', hs2⟩ := ih ((real a1 t0).children ++ rest) a1 a2 hvc hlink htypes hvt
          vs s1' h
        exact ⟨s2', by simp only [occursVars, hreal, hg, hs2]⟩

/-- A clean (`false`) occurs walk is a collecting walk. -/
theorem occursGo_toVars (v : Nat) :
    ∀ (fuel : Nat) (ws : List Typ) (a s1 : SubsState),
      occursGo v fuel a ws = some (false, s1) →
      ∃ vs, occursVars v fuel a ws = some (vs, s1) := by
  intro fuel
  induction fuel with
  | zero => intro ws a s1 h; cases h
  | succ n ih =>
    intro ws a s1 h
    cases ws with
    | nil =>
      simp only [occursGo, Option.some.injEq, Prod.mk.injEq, true_and] at h
      exact ⟨[], by simp [occursVars, h]⟩
    | cons t0 rest =>
      simp only [occursGo] at h
      cases hg : (real a t0).getVar with
      | some w =>
        simp only [hg] at h
        by_cases hvw : v = w
        · rw [if_pos hvw] at h
          simp at h
        · rw [if_neg hvw] at h
          obtain ⟨vs, hvs⟩ := ih _ _ _ h
          exact ⟨w :: vs, by simp only [occursVars, hg, if_neg hvw, hvs, Option.map_some']⟩
      | none =>
        simp only [hg] at h
        obtain ⟨vs, hvs⟩ := ih _ _ _ h
        exact ⟨vs, by simp only [occursVars, hg, hvs]⟩

/-- The level discipline of the occurs walk: the walk preserves everything
but levels, never raises a level, keeps `v`'s own level unchanged, and leaves
every collected variable at a level at most `v`'s level. -/
theorem occursVars_level (v : Nat) :
    ∀ (fuel : Nat) (ws : List Typ) (a : SubsState) (vs : List Nat) (s1 : SubsState),
      QuickFind a → TypesConcrete a → LinkRange a → TypesBelow a →
      v < a.varCount → varsBL a.varCount ws = true →
      occursVars v fuel a ws = some (vs, s1) →
      s1.varCount = a.varCount ∧ s1.link = a.link ∧ s1.types = a.types
        ∧ (∀ j, s1.level j ≤ a.level j)
        ∧ levelVal s1 v = levelVal a v
        ∧ (∀ w, w ∈ vs → a.link w = w ∧ a.types w = none ∧ w < a.varCount ∧ w ≠ v
            ∧ levelVal s1 w ≤ levelVal a v) := by
  intro fuel
  induction fuel with
  | zero => intro ws a vs s1 _ _ _ _ _ _ h; cases h
  | succ n ih =>
    intro ws a vs s1 hqf htc hlr htb hv hws h
    cases ws with
    | nil =>
      simp only [occursVars, Option.some.injEq, Prod.mk.injEq] at h
      obtain ⟨h1, h2⟩ := h
      subst h2
      refine ⟨rfl, rfl, rfl, fun j => le_rfl, rfl, fun w hw => ?_⟩
      rw [← h1] at hw
      exact absurd hw (List.not_mem_nil w)
    | cons t0 rest =>
      have hwsplit : varsB a.varCount t0 = true ∧ varsBL a.varCount rest = true := by
        simpa [varsBL, Bool.and_eq_true] using hws
      have hshape := real_shape a t0 hqf htc hlr htb hwsplit.1
      simp only [occursVars] at h
      cases hg : (real a t0).getVar with
      | some w =>
        simp only [hg] at h
        by_cases hvw : v = w
        · rw [if_pos hvw] at h
          cases h
        · rw [if_neg hvw] at h
          rw [Option.map_eq_some'] at h
          obtain ⟨p, hp, hpe⟩ := h
          injection hpe with hpe1 hpe2
          subst hpe2
          obtain ⟨hw1, hw2, hw3⟩ := hshape.2 w hg
          have htv : real a t0 = .tvar w := getVar_eq_tvar _ w hg
          obtain ⟨i1, i2, i3, i4, i5, i6⟩ := ih ((real a t0).children ++ rest)
            (updateLevel a v w) p.1 p.2
            (updateLevel_QuickFind a v w hqf) (updateLevel_TypesConcrete a v w htc)
            (updateLevel_LinkRange a v w hlr) (updateLevel_TypesBelow a v w htb)
            (by rw [updateLevel_varCount]; exact hv)
            (by rw [updateLevel_varCount, htv]
                simpa [Typ.children, varsBL] using hwsplit.2)
            hp
          refine ⟨?_, ?_, ?_, ?_, ?_, ?_⟩
          · rw [i1, updateLevel_varCount]
          · rw [i2, updateLevel_link]
          · rw [i3, updateLevel_types]
          · exact fun j => le_trans (i4 j) (updateLevel_level_le a v w hw1 hw2 hw3 j)
          · rw [i5, updateLevel_levelVal_self a v w hqf htc hv
              (fun hh => hvw hh.symm) hw1 hw2 hw3]
          · intro w' hmem
            rw [← hpe1] at hmem
            rcases List.mem_cons.mp hmem with hmem | hmem
            · subst hmem
              refine ⟨hw1, hw2, hw3, fun hh => hvw hh.symm, ?_⟩
              have hb1 : p.2.link w' = w' := by rw [i2, updateLevel_link]; exact hw1
              have hb2 : p.2.types w' = none := by rw [i3, updateLevel_types]; exact hw2
              have hb3 : w' < p.2.varCount := by rw [i1, updateLevel_varCount]; exact hw3
              rw [levelVal_walkVar p.2 w' hb1 hb2 hb3]
              have ha1 : (updateLevel a v w').link w' = w' := by
                rw [updateLevel_link]; exact hw1
              have ha2 : (updateLevel a v w').types w' = none := by
                rw [updateLevel_types]; exact hw2
              have ha3 : w' < (updateLevel a v w').varCount := by
                rw [updateLevel_varCount]; exact hw3
              calc min (p.2.level w') w'
                  ≤ min ((updateLevel a v w').level w') w' := min_le_min (i4 w') le_rfl
                _ = levelVal (updateLevel a v w') w' :=
                    (levelVal_walkVar _ w' ha1 ha2 ha3).symm
                _ ≤ levelVal a v := updateLevel_levelVal_other a v w' hw1 hw2 hw3
            · obtain ⟨j1, j2, j3, j4, j5⟩ := i6 w' hmem
              refine ⟨?_, ?_, ?_, j4, ?_⟩
              · rwa [updateLevel_link] at j1
              · rwa [updateLevel_types] at j2
              · rwa [updateLevel_varCount] at j3
              · rwa [updateLevel_levelVal_self a v w hqf htc hv
                  (fun hh => hvw hh.symm) hw1 hw2 hw3] at j5
      | none =>
        simp only [hg] at h
        exact ih ((real a t0).children ++ rest) a vs s1 hqf htc hlr htb hv
          (by rw [varsBL_append]
              simp [varsB_children a.varCount (real a t0) hshape.1, hwsplit.2])
          h

/-- Inserting a concrete type for `v` (as the insert path of `union` does)
does not change `v`'s clamped level. -/
theorem levelVal_insert_self (s1 s' : SubsState) (v : Nat) (t2 : Typ)
    (hget : t2.getVar = none) (hv0 : s1.types v = none)
    (hvc : s'.varCount = s1.varCount) (hl : s'.link = s1.link) (hlev : s'.level = s1.level)
    (hty : s'.types = fun j => if j = v then some t2 else s1.types j) :
    levelVal s' v = levelVal s1 v := by
  have hres : resolveVar s' v = resolveVar s1 v := by
    by_cases hc : s1.varCount ≤ v
    · have h1 : findTypeForVar s' v = none := by simp [findTypeForVar, hvc, hc]
      have h2 : findTypeForVar s1 v = none := by simp [findTypeForVar, hc]
      simp [resolveVar, h1, h2]
    · by_cases hρ : s1.link v = v
      · have h1 : findTypeForVar s' v = some t2 := by
          simp [findTypeForVar, hvc, hc, hl, hρ, hty]
        have h2 : findTypeForVar s1 v = none := by
          simp [findTypeForVar, hc, hρ, hv0]
        simp [resolveVar, h1, h2, hget]
      · have heq : findTypeForVar s' v = findTypeForVar s1 v := by
          simp only [findTypeForVar, hvc, hl, hty]
          rw [if_neg hρ]
        simp [resolveVar, heq]
  simp only [levelVal, getLevel_eq, hres, hl, hlev]

/-- The occurs walk of a single variable whose class has no stored type:
it collects exactly the class representative, which is not `v` (otherwise the
walk flags an occurrence and does not return a collection). -/
theorem occursVars_tvar_case (v : Nat) (fuel : Nat) (S : SubsState) (x : Nat)
    (vs : List Nat) (s2 : SubsState)
    (hx : x < S.varCount) (hty : S.types (S.link x) = none)
    (h : occursVars v fuel S [.tvar x] = some (vs, s2)) :
    vs = [S.link x] ∧ v ≠ S.link x := by
  cases fuel with
  | zero => cases h
  | succ n =>
    have hreal : real S (.tvar x) = .tvar (S.link x) := by
      by_cases hxr : x = S.link x
      · have hf : findTypeForVar S x = none := by
          simp only [findTypeForVar, if_neg (Nat.not_le.mpr hx)]
          rw [hty]
          show (if x = S.link x then none else some (Typ.tvar (S.link x))) = none
          rw [if_pos hxr]
        rw [show real S (.tvar x) = (findTypeForVar S x).getD (.tvar x) from rfl, hf,
          Option.getD_none, ← hxr]
      · have hf : findTypeForVar S x = some (.tvar (S.link x)) := by
          simp only [findTypeForVar, if_neg (Nat.not_le.mpr hx)]
          rw [hty]
          show (if x = S.link x then none else some (Typ.tvar (S.link x)))
            = some (Typ.tvar (S.link x))
          rw [if_neg hxr]
        rw [show real S (.tvar x) = (findTypeForVar S x).getD (.tvar x) from rfl, hf,
          Option.getD_some]
    simp only [occursVars, hreal, Typ.getVar] at h
    by_cases hvw : v = S.link x
    · rw [if_pos hvw] at h
      cases h
    · rw [if_neg hvw] at h
      rw [Option.map_eq_some'] at h
      obtain ⟨p, hp, hpe⟩ := h
      refine ⟨?_, hvw⟩
      cases n with
      | zero => cases hp
      | succ m =>
        simp only [Typ.children, List.nil_append, occursVars, Option.some.injEq] at hp
        injection hpe with hpe1 hpe2
        rw [← hpe1, ← hp]

/-- Two class-mates with an untyped representative have the same clamped
level: both `get_level` queries resolve to the representative. -/
theorem levelVal_link_eq (S : SubsState) (v x : Nat)
    (hv : v < S.varCount) (hlink : S.link v = S.link x)
    (hty : S.types (S.link x) = none) (hroot : S.link (S.link x) = S.link x)
    (hxv : v ≠ S.link x) (hxlt : S.link x < S.varCount) :
    levelVal S (S.link x) = levelVal S v := by
  rw [levelVal_walkVar S (S.link x) hroot hty hxlt]
  have hfv : findTypeForVar S v = some (.tvar (S.link x)) := by
    simp only [findTypeForVar, if_neg (Nat.not_le.mpr hv), hlink]
    rw [hty]
    simp [hxv]
  have hres : resolveVar S v = S.link x := by
    simp [resolveVar, hfv, Typ.getVar]
  rw [show levelVal S v = min (S.level (S.link (resolveVar S v))) (resolveVar S v) from rfl]
  rw [hres, hroot]

/-- The links after `QuickFindUf::union`: the two sides share a
representative, the representative is one of the two old roots, and it is a
fixed point of the new link map. -/
theorem unionUF_link_facts (s1 : SubsState) (v o : Nat) (hqf : QuickFind s1) :
    (unionUF s1 v o).link v = (unionUF s1 v o).link o
      ∧ ((unionUF s1 v o).link o = s1.link v ∨ (unionUF s1 v o).link o = s1.link o)
      ∧ (unionUF s1 v o).link ((unionUF s1 v o).link o) = (unionUF s1 v o).link o := by
  by_cases hne : s1.link v = s1.link o
  · have hlk : (unionUF s1 v o).link = s1.link := by
      simp only [unionUF]
      rw [if_pos hne]
    rw [hlk]
    exact ⟨hne, Or.inr rfl, hqf o⟩
  · cases hm : (ubUnion (payload s1 (s1.link v)) (payload s1 (s1.link o))).1 with
    | true =>
      have hlk : (unionUF s1 v o).link
          = fun j => if s1.link j = s1.link o then s1.link v else s1.link j := by
        simp only [unionUF]
        rw [if_neg hne, hm]
        simp
      simp only [hlk]
      refine ⟨?_, Or.inl ?_, ?_⟩
      · simp
      · simp
      · simp [hqf v, hne]
    | false =>
      have hne2 : ¬ s1.link o = s1.link v := fun h => hne h.symm
      have hlk : (unionUF s1 v o).link
          = fun j => if s1.link j = s1.link v then s1.link o else s1.link j := by
        simp only [unionUF]
        rw [if_neg hne, hm]
        simp
      simp only [hlk]
      refine ⟨?_, Or.inr ?_, ?_⟩
      · simp [hne2]
      · simp [hne2]
      · simp [hne2, hqf o]

/-! ## Claim C3 -/

/-- Claim C3: after every `union(v, t)` that returns `Ok`, every variable
appearing in `t` under the resulting substitution (the variables the occurs
walk of `t` collects there, each of which had `update_level` applied) has a
clamped level at most `v`'s clamped level.  All four `Ok` paths are covered:
the same-variable shortcut and the already-equal shortcut (where the walk of
`t` yields a class-mate of `v`, whose level equals `v`'s), the
variable-variable link path (where the walk yields the merged class's
representative, whose level equals `v`'s), and the insert path (where the
walk collects the same variables the occurs check lowered).  Stated under the
reachable-state invariants (quick-find links, concrete type map mentioning
only created variables, links in range, `v` and `t`'s variables created) and
the call-site invariants that `union` is invoked on unresolved sides: `v`'s
class has no stored type, and neither does `t`'s class when `t` is a
variable (the unifier passes `union` a variable it could not `real` away). -/
theorem c3_theorem (fuel : Nat) (eqv : Typ → Typ → Bool) (inst : Typ → Typ)
    (s : SubsState) (v : Nat) (t : Typ) (r : Option Typ) (s' : SubsState)
    (hqf : QuickFind s) (htc : TypesConcrete s) (hlr : LinkRange s) (htb : TypesBelow s)
    (hv : v < s.varCount) (ht : varsB s.varCount t = true)
    (hv0 : s.types (s.link v) = none)
    (ht0 : ∀ x, t.getVar = some x → s.types (s.link x) = none)
    (hok : unionF fuel eqv inst s v t = .ok r s') :
    ∀ vs s2, occursVars v fuel s' [t] = some (vs, s2) →
      ∀ w, w ∈ vs → levelVal s' w ≤ levelVal s' v := by
  intro vs s2 hvs w hw
  rcases unionF_ok_cases fuel eqv inst s v t r s' hok with ⟨hs, _, hse⟩ | ⟨s1, _, hocc, htail⟩
  · -- the same-variable shortcut: t = Variable v, nothing was done
    have htv : t = .tvar v := by
      cases hgv : t.getVar with
      | none => simp [sameVar, hgv] at hs
      | some x =>
        simp only [sameVar, hgv] at hs
        have hxv : x = v := by simpa using hs
        subst hxv
        exact getVar_eq_tvar t x hgv
    subst hse
    subst htv
    obtain ⟨hvseq, hvne⟩ := occursVars_tvar_case v fuel s' v vs s2 hv hv0 hvs
    rw [hvseq] at hw
    have hweq : w = s'.link v := by simpa using hw
    subst hweq
    exact le_of_eq (levelVal_link_eq s' v v hv rfl hv0 (hqf v) hvne (hlr v hv))
  · obtain ⟨vs0, hvars⟩ := occursGo_toVars v fuel [t] s s1 hocc
    obtain ⟨l1, l2, l3, l4, l5, l6⟩ := occursVars_level v fuel [t] s vs0 s1 hqf htc hlr htb
      hv (by simp [varsBL, ht]) hvars
    rcases unionTail_ok_cases eqv inst s1 v t r s' htail with ⟨_, hse, _⟩ | ⟨ro, _, hres, hfin⟩
    · obtain ⟨s2', hs2'⟩ := occursVars_stable v fuel [t] s s1 l1 l2
        (fun i _ => by rw [l3]) (Or.inl (by rw [l3])) vs0 s1 hvars
      rw [hse] at hvs
      rw [hs2'] at hvs
      injection hvs with hvs1
      injection hvs1 with hv1 hv2
      rw [hse]
      have hb := l6 w (by rw [hv1]; exact hw)
      rw [l5.symm] at hb
      exact hb.2.2.2.2
    · simp only [unionFinish] at hfin
      split at hfin
      · next otherId hsome =>
        -- the variable-variable link path
        injection hfin with hf1 hf2
        have htvar : t = .tvar otherId := by
          by_cases htn : t.getVar = none
          · exfalso
            have hcc := resolved_concrete eqv inst s1 v t ro htn hres
            rw [hsome] at hcc
            cases hcc
          · have hiso : t.getVar.isNone = false := by
              cases hgv : t.getVar
              · exact absurd hgv htn
              · rfl
            rw [hiso] at hres
            simp only [Bool.false_eq_true, if_false] at hres
            injection hres with hro
            rw [← hro] at hsome
            simp only [Option.getD_none] at hsome
            exact getVar_eq_tvar t otherId hsome
        subst htvar
        have hSlink : s'.link = (unionUF s1 v otherId).link := by
          rw [← hf2, updateLevel_link, updateLevel_link]
        have hStypes : s'.types = s1.types := by
          rw [← hf2, updateLevel_types, updateLevel_types, unionUF_types]
        have hSvc : s'.varCount = s1.varCount := by
          rw [← hf2, updateLevel_varCount, updateLevel_varCount, unionUF_varCount]
        have hqf1 : QuickFind s1 := by
          intro i
          rw [l2]
          exact hqf i
        obtain ⟨u1, u2, u3⟩ := unionUF_link_facts s1 v otherId hqf1
        have hoid : otherId < s.varCount := by simpa [varsB] using ht
        have hWty : s'.types (s'.link otherId) = none := by
          rw [hStypes, hSlink]
          rcases u2 with hu | hu
          · rw [hu, l3, l2]
            exact hv0
          · rw [hu, l3, l2]
            exact ht0 otherId rfl
        have hWroot : s'.link (s'.link otherId) = s'.link otherId := by
          rw [hSlink]
          exact u3
        have hWlt : s'.link otherId < s'.varCount := by
          rw [hSlink, hSvc]
          rcases u2 with hu | hu
          · rw [hu, l2, l1]
            exact hlr v hv
          · rw [hu, l2, l1]
            exact hlr otherId hoid
        have hxlt : otherId < s'.varCount := by rw [hSvc, l1]; exact hoid
        have hvlt2 : v < s'.varCount := by rw [hSvc, l1]; exact hv
        obtain ⟨hvseq, hvne⟩ := occursVars_tvar_case v fuel s' otherId vs s2 hxlt hWty hvs
        rw [hvseq] at hw
        have hweq : w = s'.link otherId := by simpa using hw
        subst hweq
        refine le_of_eq (levelVal_link_eq s' v otherId hvlt2 ?_ hWty hWroot hvne hWlt)
        rw [hSlink]
        exact u1
      · split at hfin
        · cases hfin
        · cases hfin
        · next s2i hins =>
          injection hfin with hf1 hf2
          obtain ⟨pty, plink, pvc, plev, _, _, pget, pv0⟩ := insertT_ok s1 v (ro.getD t) s2i hins
          subst hf2
          obtain ⟨s2', hs2'⟩ := occursVars_stable v fuel [t] s s2i
            (by rw [pvc, l1]) (by rw [plink, l2])
            (fun i hi => by rw [pty]; simp only [if_neg hi]; rw [l3])
            (Or.inr (by rw [l3] at pv0; exact pv0))
            vs0 s1 hvars
          rw [hs2'] at hvs
          injection hvs with hvs1
          injection hvs1 with hv1 hv2
          obtain ⟨b1, b2, b3, b4, b5⟩ := l6 w (by rw [hv1]; exact hw)
          have hw1' : s2i.link w = w := by rw [plink, l2]; exact b1
          have hw2' : s2i.types w = none := by
            rw [pty]
            simp only [if_neg b4]
            rw [l3]
            exact b2
          have hw3' : w < s2i.varCount := by rw [pvc, l1]; exact b3
          rw [levelVal_walkVar s2i w hw1' hw2' hw3']
          have hv' : levelVal s2i v = levelVal s1 v :=
            levelVal_insert_self s1 s2i v (ro.getD t) pget pv0 pvc plink plev pty
          rw [hv', l5, plev]
          have hs1w : levelVal s1 w = min (s1.level w) w :=
            levelVal_walkVar s1 w (by rw [l2]; exact b1) (by rw [l3]; exact b2)
              (by rw [l1]; exact b3)
          rw [← hs1w]
          exact b5

theorem sTwo_link_id : ∀ j, sTwo.link j = j := by
  intro j
  show (if j = 1 then 1 else if j = 0 then 0 else j) = j
  by_cases h1 : j = 1
  · simp [h1]
  · by_cases h0 : j = 0 <;> simp [h1, h0]

theorem sTwo_QuickFind : QuickFind sTwo := by
  intro i
  rw [sTwo_link_id, sTwo_link_id]

theorem sTwo_TypesConcrete : TypesConcrete sTwo := by
  intro i u h
  simp [sTwo, newVar, newConstrainedVar, sEmpty] at h

theorem sTwo_LinkRange : LinkRange sTwo := by
  intro i hi
  rw [sTwo_link_id]
  exact hi

theorem sTwo_TypesBelow : TypesBelow sTwo := by
  intro i u h
  simp [sTwo, newVar, newConstrainedVar, sEmpty] at h

/-- Witness for C3, exercising two `Ok` paths.  Insert path: in the
two-variable state, `union(0, App (builtin 9) [Variable 1])` succeeds by
inserting; the walk of the type collects variable `1`, whose clamped level is
afterwards at most `0`'s.  Link path: `union(1, Variable 0)` succeeds by
merging the two classes; the walk of `Variable 0` collects the merged
representative `0`, whose clamped level is at most `1`'s. -/
theorem c3_witness :
    0 < sTwo.varCount
      ∧ levelVal (okStateD (unionF 10 eqvAll instId sTwo 0 (.app (.builtin 9) [.tvar 1]))) 1
        ≤ levelVal (okStateD (unionF 10 eqvAll instId sTwo 0 (.app (.builtin 9) [.tvar 1]))) 0
      ∧ levelVal (okStateD (unionF 10 eqvAll instId sTwo 1 (.tvar 0))) 0
        ≤ levelVal (okStateD (unionF 10 eqvAll instId sTwo 1 (.tvar 0))) 1 :=
  ⟨by decide,
   c3_theorem 10 eqvAll instId sTwo 0 (.app (.builtin 9) [.tvar 1]) none
     (okStateD (unionF 10 eqvAll instId sTwo 0 (.app (.builtin 9) [.tvar 1])))
     sTwo_QuickFind sTwo_TypesConcrete sTwo_LinkRange sTwo_TypesBelow
     (by decide) (by decide) rfl (fun x hx => nomatch hx) rfl
     [1]
     ((occursVars 0 10 (okStateD (unionF 10 eqvAll instId sTwo 0
         (.app (.builtin 9) [.tvar 1]))) [.app (.builtin 9) [.tvar 1]]).getD ([], sEmpty)).2
     rfl 1 (by simp),
   c3_theorem 10 eqvAll instId sTwo 1 (.tvar 0) none
     (okStateD (unionF 10 eqvAll instId sTwo 1 (.tvar 0)))
     sTwo_QuickFind sTwo_TypesConcrete sTwo_LinkRange sTwo_TypesBelow
     (by decide) (by decide) rfl
     (fun x hx => by injection hx with h; subst h; rfl) rfl
     [0]
     ((occursVars 1 10 (okStateD (unionF 10 eqvAll instId sTwo 1 (.tvar 0)))
         [.tvar 0]).getD ([], sEmpty)).2
     rfl 0 (by simp)⟩

/-! ## Claim C9 -/

/-- Claim C9: `union` never reaches the variable-insertion `panic!` of
`Substitution::insert` — it only inserts after the (possibly
constraint-resolved) type was matched as a non-variable, and links
variable-to-variable cases through the union-find; moreover a successful
`union` preserves the invariant that the `types` map holds no variable-headed
type. -/
theorem c9_theorem (fuel : Nat) (equiv : Typ → Typ → Bool) (inst : Typ → Typ)
    (s : SubsState) (v : Nat) (t : Typ) :
    unionF fuel equiv inst s v t ≠ .panicVarInsert
      ∧ (TypesConcrete s → ∀ r s', unionF fuel equiv inst s v t = .ok r s' →
          TypesConcrete s') := by
  constructor
  · intro h
    simp only [unionF] at h
    split at h
    · cases h
    · split at h
      · cases h
      · cases h
      · simp only [unionTail] at h
        split at h
        · cases h
        · split at h
          · cases h
          · exact unionFinish_ne_panicVar _ _ _ _ h
  · intro hconc r s' h
    rcases unionF_ok_cases fuel equiv inst s v t r s' h with
      ⟨-, -, rfl⟩ | ⟨s1, -, hocc, htail⟩
    · exact hconc
    · have hpres := occursGo_pres v fuel s [t] false s1 hocc
      have hconc1 : TypesConcrete s1 := fun i u hu => hconc i u (hpres.2.2.2.2 ▸ hu)
      rcases unionTail_ok_cases equiv inst s1 v t r s' htail with
        ⟨-, rfl, -⟩ | ⟨ro, -, -, hfin⟩
      · exact hconc1
      · rcases unionFinish_ok_types s1 v t ro r s' hfin with hsame | ⟨t2, hvar, hty, -, -⟩
        · exact fun i u hu => hconc1 i u (hsame ▸ hu)
        · intro i u hu
          rw [hty] at hu
          have hu2 : (if i = v then some t2 else s1.types i) = some u := hu
          by_cases hi : i = v
          · rw [if_pos hi] at hu2
            injection hu2 with hu3
            exact hu3 ▸ hvar
          · rw [if_neg hi] at hu2
            exact hconc1 i u hu2

/-- Witness for C9 at a concrete input: the no-variable-in-`types` invariant
after inserting a concrete type for variable `0`. -/
theorem c9_witness :
    (match unionF 10 eqvAll instId sTwo 0 (.app (.builtin 5) [.tvar 1]) with
      | .ok _ s' => TypesConcrete s'
      | _ => False) :=
  (c9_theorem 10 eqvAll instId sTwo 0 (.app (.builtin 5) [.tvar 1])).2
    (fun _ _ hu => nomatch hu) _ _ rfl

/-! ## Claim C4 -/

/-- Claim C4, counterexample: after the *successful* union of variable `0`
with variable `1` (levels tie, rank makes `0` the representative), `real` on
variable `0` returns `Variable 0` itself — the claim fails for the winning
side of a variable-variable union. -/
theorem c4_counterexample :
    isOkNone (unionF 10 eqvAll instId sTwo 0 (.tvar 1)) = true
      ∧ real (okStateD (unionF 10 eqvAll instId sTwo 0 (.tvar 1))) (.tvar 0) = .tvar 0 :=
  ⟨rfl, rfl⟩

/-- Claim C4, amended: for a created variable `v` unified by a successful
`union(v, t)` with a *concrete* type `t` (the claim's variable-variable case
fails, see the counterexample: the class representative still `real`s to
itself), `real(v)` returns a type whose head is not `v`: either the inserted
concrete type, a concrete type already stored at the representative, or the
distinct representative variable. -/
theorem c4_amended (fuel : Nat) (equiv : Typ → Typ → Bool) (inst : Typ → Typ)
    (s : SubsState) (v : Nat) (t : Typ) (r : Option Typ) (s' : SubsState)
    (hconc : TypesConcrete s) (hv : v < s.varCount) (ht : t.getVar = none)
    (hok : unionF fuel equiv inst s v t = .ok r s') :
    (real s' (.tvar v)).getVar ≠ some v := by
  rcases unionF_ok_cases fuel equiv inst s v t r s' hok with
    ⟨hsame, -, rfl⟩ | ⟨s1, -, hocc, htail⟩
  · unfold sameVar at hsame
    rw [ht] at hsame
    cases hsame
  · have hpres := occursGo_pres v fuel s [t] false s1 hocc
    have hconc1 : TypesConcrete s1 := fun i u hu => hconc i u (hpres.2.2.2.2 ▸ hu)
    have hv1 : v < s1.varCount := hpres.1 ▸ hv
    rcases unionTail_ok_cases equiv inst s1 v t r s' htail with
      ⟨-, rfl, hc⟩ | ⟨ro, -, hres, hfin⟩
    · -- the already-equal shortcut: `find_type_for_var v` matched `real t`
      obtain ⟨x, hfv⟩ := unionEqCheck_concrete s' v t ht hc
      rw [real_tvar_some s' v x hfv]
      exact findTypeForVar_not_self s' v x hconc1 hfv
    · -- `unionFinish` on a concrete type: the insert branch was taken
      have ht2 : (ro.getD t).getVar = none := resolved_concrete equiv inst s1 v t ro ht hres
      simp only [unionFinish, ht2] at hfin
      split at hfin
      · cases hfin
      · cases hfin
      · next s2 hins =>
        injection hfin with h1 h2
        subst h2
        obtain ⟨hty, hlink, hvc, -, -, -, hvar2, -⟩ := insertT_ok s1 v _ s2 hins
        exact real_after_insert s1 v (ro.getD t) s2 hconc1 hv1 ht2 hvc hlink hty

/-- Witness for the amended C4 at a concrete input: after `union(0, Int-ish)`
on two fresh variables, `real(Variable 0)` is not headed by `0`. -/
theorem c4_witness :
    (real (okStateD (unionF 10 eqvAll instId sTwo 0 (.builtin 5))) (.tvar 0)).getVar
      ≠ some 0 :=
  c4_amended 10 eqvAll instId sTwo 0 (.builtin 5) none
    (okStateD (unionF 10 eqvAll instId sTwo 0 (.builtin 5)))
    (fun _ _ hu => nomatch hu) (by decide) rfl rfl

/-! ## Claim C10 -/

/-- Claim C10: under the invariants that `types` holds no variable-headed
types, the union-find is quick-find, and the class level invariant holds at
`v`, `get_level(v)` returns a value at most `v`'s own id; a freshly created
variable starts with stored level `u32::MAX`; and (ids being `u32`s, hence at
most `u32::MAX`) a fresh variable's effective level equals its id. -/
theorem c10_theorem (s : SubsState) (v : Nat) (c : Option (Symbol × List Typ)) :
    (TypesConcrete s → QuickFind s → LevelInv s v → levelVal s v ≤ v)
      ∧ (newConstrainedVar s c).2.level s.varCount = u32Max
      ∧ (s.types s.varCount = none → s.varCount ≤ u32Max →
          levelVal (newConstrainedVar s c).2 s.varCount = s.varCount) := by
  refine ⟨?_, ?_, ?_⟩
  · intro hconc hqf hinv
    rcases hfv : findTypeForVar s v with _ | u
    · have hval : levelVal s v = min (s.level (s.link v)) v := by
        simp only [levelVal, getLevel, hfv]
      rw [hval]
      exact Nat.min_le_right _ _
    · rcases hu : u.getVar with _ | w
      · have hval : levelVal s v = min (s.level (s.link v)) v := by
          simp only [levelVal, getLevel, hfv, hu, Option.getD_none]
        rw [hval]
        exact Nat.min_le_right _ _
      · have hval : levelVal s v = min (s.level (s.link w)) w := by
          simp only [levelVal, getLevel, hfv, hu, Option.getD_some]
        rw [hval]
        -- `u` must be the representative variable: types are concrete
        simp only [findTypeForVar] at hfv
        split at hfv
        · cases hfv
        · split at hfv
          · next hty =>
            injection hfv with h3
            rw [← h3, hconc _ _ hty] at hu
            cases hu
          · split at hfv
            · cases hfv
            · next hne =>
              injection hfv with h3
              rw [← h3] at hu
              injection hu with h4
              subst h4
              rw [hqf v]
              rcases hinv with hl | hl
              · exact absurd hl.symm hne
              · exact le_trans (Nat.min_le_left _ _) hl
  · simp [newConstrainedVar]
  · intro hty hid
    have hfv : findTypeForVar (newConstrainedVar s c).2 s.varCount = none := by
      simp only [findTypeForVar, newConstrainedVar]
      rw [if_neg (Nat.not_succ_le_self s.varCount)]
      simp [hty]
    have hval : levelVal (newConstrainedVar s c).2 s.varCount
        = min ((newConstrainedVar s c).2.level ((newConstrainedVar s c).2.link s.varCount))
            s.varCount := by
      simp only [levelVal, getLevel, hfv]
    rw [hval]
    have hlk : (newConstrainedVar s c).2.link s.varCount = s.varCount := by
      simp [newConstrainedVar]
    have hlv : (newConstrainedVar s c).2.level s.varCount = u32Max := by
      simp [newConstrainedVar]
    rw [hlk, hlv]
    exact Nat.min_eq_right hid

/-- Witness for C10 at concrete inputs: `get_level 0` on the two-variable
state is at most `0`, and a fresh variable's effective level is its id. -/
theorem c10_witness :
    levelVal sTwo 0 ≤ 0 ∧ levelVal (newConstrainedVar sEmpty none).2 0 = 0 :=
  ⟨(c10_theorem sTwo 0 none).1 (fun _ _ hu => nomatch hu)
      (by
        intro i
        show sTwo.link (sTwo.link i) = sTwo.link i
        have hl : ∀ j, sTwo.link j = j := by
          intro j
          show (if j = 1 then 1 else if j = 0 then 0 else j) = j
          split_ifs with h1 h2 <;> omega
        rw [hl, hl])
      (Or.inl rfl),
    (c10_theorem sEmpty 0 none).2.2 rfl (Nat.zero_le _)⟩

end Gluon
